import Mathlib

/-!
Shallow embedding of the core path/string engine of the repository
`mcp-typescript-tools`: specifier resolution, import-path rewriting,
repair-candidate selection, cycle detection over the derived import
graph, and the rename orchestrator's validation flow.

Absolute POSIX paths are embedded as their lists of segments
(`/p/a.ts` becomes `["p", "a.ts"]`); module specifiers remain strings,
exactly as the source manipulates them.  JavaScript string primitives
are modelled over `String.data` so that proofs can reason by list
induction while concrete instances still evaluate by `decide`.
-/

namespace McpTs

/-- JS string concatenation (`a + b`). -/
def strCat (a b : String) : String := ⟨a.data ++ b.data⟩

/-- JS `String.prototype.startsWith`. -/
def strStartsWith (s t : String) : Bool := decide (t.data <+: s.data)

/-- JS `String.prototype.endsWith`. -/
def strEndsWith (s t : String) : Bool := decide (t.data <:+ s.data)

/-- Drop the last `n` characters of a string (models regex suffix removal). -/
def dropRightStr (s : String) (n : Nat) : String := ⟨s.data.take (s.data.length - n)⟩

/-- JS `String.prototype.length` (the sources only ever see ASCII). -/
def strLen (s : String) : Nat := s.data.length

/-- JS `String.prototype.toLowerCase`, character by character. -/
def strToLower (s : String) : String := ⟨s.data.map Char.toLower⟩

/-- An absolute POSIX path, as its list of segments. -/
abbrev Path := List String

/-- `path.dirname` on an absolute path. -/
def dirname (p : Path) : Path := p.dropLast

/-- `path.basename` on an absolute path. -/
def lastSeg : Path → String
  | [] => ""
  | [a] => a
  | _ :: rest => lastSeg rest

/-- Splitting a string at `/` characters, as JS `s.split('/')`. -/
def splitSlashChars : List Char → List (List Char)
  | [] => [[]]
  | c :: cs =>
    if c = '/' then [] :: splitSlashChars cs
    else
      match splitSlashChars cs with
      | [] => [[c]]
      | g :: gs => (c :: g) :: gs

/-- JS `s.split('/')`. -/
def splitSlash (s : String) : List String := (splitSlashChars s.data).map (fun l => ⟨l⟩)

/-- Joining path segments with `/` (how `path.relative` prints its result). -/
def joinSlash : List String → String
  | [] => ""
  | [s] => s
  | s :: rest => strCat s (strCat "/" (joinSlash rest))

/-- Render an absolute segment path as the string the sources see. -/
def pathToStr (p : Path) : String := strCat "/" (joinSlash p)

/-- One step of `path.resolve` segment processing: empty and `.` segments
are skipped, `..` pops, anything else is pushed. -/
def applySeg (dir : Path) (seg : String) : Path :=
  if seg = "" ∨ seg = "." then dir
  else if seg = ".." then dir.dropLast
  else dir ++ [seg]

/-- Resolve a list of specifier segments against a base directory. -/
def resolveSegs (dir : Path) (segs : List String) : Path := segs.foldl applySeg dir

/-- `path.resolve(dir, spec)` for a string specifier. -/
def resolveSpec (dir : Path) (spec : String) : Path :=
  if strStartsWith spec "/" then resolveSegs [] (splitSlash spec)
  else resolveSegs dir (splitSlash spec)

/-- Length of the longest common segment prefix (what `path.relative` strips). -/
def commonPrefixLen : Path → Path → Nat
  | a :: as, b :: bs => if a = b then commonPrefixLen as bs + 1 else 0
  | _, _ => 0

/-- `path.relative` as a segment list: `..` for every remaining segment of
the origin, then the remaining segments of the target. -/
def relativeSegs (f t : Path) : List String :=
  List.replicate (f.length - commonPrefixLen f t) ".." ++ t.drop (commonPrefixLen f t)

/-- `path.relative(f, t)` as the string the sources see (`""` when equal). -/
def relativeStr (f t : Path) : String := joinSlash (relativeSegs f t)

/-- The `./`-prefix normalisation used everywhere: prefix `./` unless the
relative string already starts with `.`. -/
def dotPrefix (s : String) : String :=
  if strStartsWith s "." = false then strCat "./" s else s

/-- The language source extensions of the 4-alternative regex
`/\.(ts|tsx|js|jsx)$/`. -/
def langExts : List String := [".ts", ".tsx", ".js", ".jsx"]

/-- `/\.(ts|tsx|js|jsx)$/.test(s)`. -/
def hasLangExt (s : String) : Bool := langExts.any (fun e => strEndsWith s e)

/-- `s.replace(/\.(ts|tsx|js|jsx)$/, '')`.  The four suffixes are mutually
exclusive, so testing them in any order matches the regex. -/
def stripLangExt (s : String) : String :=
  if strEndsWith s ".tsx" then dropRightStr s 4
  else if strEndsWith s ".ts" then dropRightStr s 3
  else if strEndsWith s ".jsx" then dropRightStr s 4
  else if strEndsWith s ".js" then dropRightStr s 3
  else s

/-- `s.replace(/\.(ts|tsx|js|jsx|d\.ts)$/, '')`: the `d.ts` alternative wins
whenever it matches, since its match starts further left. -/
def stripLangExt5 (s : String) : String :=
  if strEndsWith s ".d.ts" then dropRightStr s 5 else stripLangExt s

/-- `s.replace(/\.(ts|tsx)$/, '')` (used by the file-move rewriter). -/
def stripTsTsx (s : String) : String :=
  if strEndsWith s ".tsx" then dropRightStr s 4
  else if strEndsWith s ".ts" then dropRightStr s 3
  else s

/-- Appending an extension to a path string (`resolved + '.ts'`) suffixes
the final segment. -/
def addExt : Path → String → Path
  | [], ext => [ext]
  | [a], ext => [strCat a ext]
  | a :: b :: rest, ext => a :: addExt (b :: rest) ext

/-- Applying a string rewrite to the final segment of a path (models the
anchored-regex replaces `toPath.replace(/\.(ts|tsx)$/, '')` and friends). -/
def mapLastSeg (f : String → String) : Path → Path
  | [] => []
  | [a] => [f a]
  | a :: b :: rest => a :: mapLastSeg f (b :: rest)

/-- The filesystem, as the set of existing entries (files and directories
both appear in `entries`; `dirs` lists those that are directories) plus a
`realpathSync` function (`id` in a tree without symlinks). -/
structure FS where
  entries : List Path
  dirs : List Path := []
  real : Path → Path := id

/-- `fs.existsSync` / a successful `statSync` (both files and directories). -/
def FS.existsSync (fs : FS) (p : Path) : Bool := decide (p ∈ fs.entries)

/-- `stats.isDirectory()`. -/
def FS.isDir (fs : FS) (p : Path) : Bool := decide (p ∈ fs.dirs)

/-- First path of a probe list that exists on disk. -/
def firstExisting (fs : FS) : List Path → Option Path
  | [] => none
  | p :: ps => if fs.existsSync p then some p else firstExisting fs ps

/-! ### The file-rename resolver (`src/services/file-rename/index.ts`) -/

/-- The probe list of the file-rename resolver: the literal path first,
then `.ts`, `.tsx`, `.js`, `.jsx`, then `/index` with those extensions
(`const extensions = ['', '.ts', '.tsx', '.js', '.jsx', '/index.ts', ...]`). -/
def renameProbeList (resolved : Path) : List Path :=
  [resolved,
   addExt resolved ".ts", addExt resolved ".tsx",
   addExt resolved ".js", addExt resolved ".jsx",
   resolved ++ ["index.ts"], resolved ++ ["index.tsx"],
   resolved ++ ["index.js"], resolved ++ ["index.jsx"]]

/-- Body of the file-rename `resolveImportPath` for a relative specifier:
first existing probe wins (`statSync` succeeding on a file or a
directory), and the bare resolved path is returned when nothing exists. -/
def resolveRelativeRename (fs : FS) (fromFile : Path) (importPath : String) : Path :=
  let resolvedPath := resolveSpec (dirname fromFile) importPath
  (firstExisting fs (renameProbeList resolvedPath)).getD resolvedPath

/-- Result of the file-rename `resolveImportPath`: a non-relative specifier
is returned unchanged (`external`), otherwise a probed path. -/
inductive ResolveOut where
  | external (spec : String)
  | path (p : Path)
deriving DecidableEq

/-- `resolveImportPath` of `src/services/file-rename/index.ts`. -/
def resolveImportPathRename (fs : FS) (fromFile : Path) (importPath : String) : ResolveOut :=
  if strStartsWith importPath "." = false then .external importPath
  else .path (resolveRelativeRename fs fromFile importPath)

/-- `resolvedWithExt.replace(oldAbsPath, newAbsPath)`: the callers guard
with `resolvedPath === oldAbsPath || resolvedPath.startsWith(oldAbsPath + '/')`,
so the first (and replaced) occurrence is the whole-segment prefix; the
string replace is therefore modelled as segment-prefix replacement. -/
def replacePrefixPath (p oldAbs newAbs : Path) : Path :=
  if decide (oldAbs <+: p) then newAbs ++ p.drop oldAbs.length else p

/-- `calculateNewImportPath` of `src/services/file-rename/index.ts`:
resolve the original specifier (with extension), swap the moved prefix,
re-relativise from the importer's directory, normalise to a `./`-style
specifier, strip a language extension unless the original specifier had
one, and strip a trailing `/index` unless the original ended with it. -/
def calculateNewImportPath (fs : FS) (fromFile oldAbs newAbs : Path)
    (originalImport : String) (newFromFilePath : Option Path := none) : String :=
  if strStartsWith originalImport "." = false then originalImport
  else
    let fromDir := dirname (newFromFilePath.getD fromFile)
    let resolvedWithExt := resolveRelativeRename fs fromFile originalImport
    let resolvedNewPath := replacePrefixPath resolvedWithExt oldAbs newAbs
    let rel1 := dotPrefix (relativeStr fromDir resolvedNewPath)
    let rel2 := if hasLangExt originalImport then rel1 else stripLangExt rel1
    if strEndsWith originalImport "/index" = false then
      (if strEndsWith rel2 "/index" then dropRightStr rel2 6 else rel2)
    else rel2

/-! ### The file-move rewriter (`src/services/file-move/index.ts`) -/

/-- `createOptimalImportPath` of `src/services/file-move/index.ts`: strip
`.ts`/`.tsx` from the target, reference the containing directory when the
target is an `index` file, else the (extension-stripped) file itself; the
`hasIndexFile` filesystem probe selects between two identical branches in
the source and is kept for fidelity. -/
def createOptimalImportPath (fs : FS) (fromDir toPath : Path) : String :=
  let targetPath := mapLastSeg stripTsTsx toPath
  let isIndexFile := lastSeg targetPath = "index"
  if isIndexFile then
    let targetDir := dirname targetPath
    dotPrefix (relativeStr fromDir targetDir)
  else
    let targetDir := dirname targetPath
    let hasIndexFile :=
      fs.existsSync (targetDir ++ ["index.ts"]) || fs.existsSync (targetDir ++ ["index.tsx"])
    if hasIndexFile then dotPrefix (relativeStr fromDir targetPath)
    else dotPrefix (relativeStr fromDir targetPath)

/-! ### The repair engine (`src/services/import-path-repair/index.ts`) -/

/-- The extensions the repair resolver probes
(`const extensions = ['.ts', '.tsx', '.js', '.jsx', '.d.ts']`). -/
def repairExts : List String := [".ts", ".tsx", ".js", ".jsx", ".d.ts"]

/-- The probe list of the repair resolver: the five extension-appended
paths, then the five `index` files.  There is no literal probe. -/
def repairProbeList (resolved : Path) : List Path :=
  repairExts.map (addExt resolved) ++ repairExts.map (fun e => resolved ++ [strCat "index" e])

/-- `resolveImportPath` of `src/services/import-path-repair/index.ts`:
returns the first existing extension or index probe, never the literal
path, and `null` (here `none`) when nothing exists. -/
def resolveImportPathRepair (fs : FS) (currentFilePath : Path) (importPath : String) : Option Path :=
  let resolved := resolveSpec (dirname currentFilePath) importPath
  firstExisting fs (repairProbeList resolved)

/-- `path.basename` on a specifier string (trailing-slash-free inputs). -/
def strBasename (s : String) : String :=
  ((splitSlash s).filter (fun x => x ≠ "")).getLast?.getD ""

/-- `path.dirname` on a relative specifier string. -/
def strDirname (s : String) : String :=
  let parts := splitSlash s
  if parts.length ≤ 1 then "." else joinSlash parts.dropLast

/-- `getFileNameFromPath`: basename with extension stripped; a bare
`index` falls back to the parent directory name; empty results are
`null`. -/
def getFileNameFromPath (importPath : String) : Option String :=
  let fileName := stripLangExt5 (strBasename importPath)
  if fileName = "index" then
    let parentDir := strBasename (strDirname importPath)
    if parentDir = "" then none else some parentDir
  else if fileName = "" then none else some fileName

/-- `path.extname` of a basename string: empty for extension-less and
dot-leading names, else the final dot suffix. -/
def extnameStr (b : String) : String :=
  let parts := b.splitOn "."
  if parts.length ≤ 1 then ""
  else if parts.headI = "" ∧ parts.length = 2 then ""
  else strCat "." (parts.getLastD "")

/-- A repair candidate (`FileMatch` in the source). -/
structure FileMatch where
  path : Path
  exports : List String
  hasDefault : Bool
  distance : Nat
  similarity : ℚ
deriving DecidableEq

/-- The import kinds distinguished by `getImportType`. -/
inductive ImportKind where
  | named
  | defaultKind
  | namespaceKind
  | sideEffect
deriving DecidableEq

/-- The `RepairResult.status` union of the source, including the declared
but never produced `multiple_matches`. -/
inductive RepairStatus where
  | repaired
  | notFound
  | multipleMatches
  | alreadyValid
deriving DecidableEq

/-- `RepairResult` of the source. -/
structure RepairResult where
  originalPath : String
  repairedPath : Option String
  importType : ImportKind
  namedImports : List String := []
  status : RepairStatus
  candidateFiles : List Path := []
  selectedFile : Option Path := none
  reason : String := ""
deriving DecidableEq

/-- `calculateSimilarity`'s character-count core: each character of the
first string consumes at most one remaining character of the second
(`indexOf` + `splice`). -/
def countCommon : List Char → List Char → Nat
  | [], _ => 0
  | c :: cs, l2 =>
    if decide (c ∈ l2) then countCommon cs (l2.erase c) + 1 else countCommon cs l2

/-- `calculateSimilarity` of the source: special cases for empty and equal
strings, otherwise common characters (case-insensitive) over the longer
length. -/
def calculateSimilarity (str1 str2 : String) : ℚ :=
  let len1 := strLen str1
  let len2 := strLen str2
  if len1 = 0 ∧ len2 = 0 then 1
  else if len1 = 0 ∨ len2 = 0 then 0
  else if str1 = str2 then 1
  else ((countCommon (strToLower str1).data (strToLower str2).data : ℚ)) / ((max len1 len2 : ℕ) : ℚ)

/-- `calculateDirectoryDistance`: split the relative path, drop `.` parts,
charge 2 per `..` and 1 per ordinary segment (the JS `''.split('/')`
quirk — a lone empty part for identical directories — is preserved by
working on the joined string). -/
def calculateDirectoryDistance (dir1 dir2 : Path) : Nat :=
  let parts := (splitSlash (relativeStr dir1 dir2)).filter (fun part => part ≠ ".")
  parts.foldl (fun count part => if part = ".." then count + 2 else count + 1) 0

/-- `scoreCandidates`: recompute every candidate's directory distance from
the importing file (the other arguments of the source function are unused
by its body). -/
def scoreCandidates (candidates : List FileMatch) (currentFilePath : Path) : List FileMatch :=
  candidates.map fun candidate =>
    { candidate with
      distance := calculateDirectoryDistance (dirname currentFilePath) (dirname candidate.path) }

/-- The export-requirement test used by the comparator inside
`selectBestCandidate` (`aHasExports`). -/
def exportsMatch (requiredExports : List String) (importType : ImportKind) (c : FileMatch) : Bool :=
  match importType with
  | .defaultKind => c.hasDefault
  | _ => requiredExports.all (fun e => decide (e ∈ c.exports))

/-- The filter step of `selectBestCandidate`: default imports keep only
default-exporting candidates; named imports with requirements keep only
superset candidates; everything else passes. -/
def filterCandidates (candidates : List FileMatch) (requiredExports : List String)
    (importType : ImportKind) : List FileMatch :=
  match importType with
  | .defaultKind => candidates.filter (fun c => c.hasDefault)
  | .named =>
    if requiredExports.length > 0 then
      candidates.filter (fun c => requiredExports.all (fun e => decide (e ∈ c.exports)))
    else candidates
  | _ => candidates

/-- `comparator(a, b) <= 0` for the sort inside `selectBestCandidate`:
export match first (`bHasExports - aHasExports`), then distance ascending
(`a.distance - b.distance`), then similarity descending
(`b.similarity - a.similarity`). -/
def candLe (requiredExports : List String) (importType : ImportKind) (a b : FileMatch) : Bool :=
  let aH := exportsMatch requiredExports importType a
  let bH := exportsMatch requiredExports importType b
  if aH ≠ bH then aH
  else if a.distance ≠ b.distance then decide (a.distance < b.distance)
  else decide (b.similarity ≤ a.similarity)

/-- `selectBestCandidate`: filter by export requirements, fall back to the
unfiltered set when the filter empties it, sort by the comparator and take
the first element. -/
def selectBestCandidate (candidates : List FileMatch) (requiredExports : List String)
    (importType : ImportKind) : Option FileMatch :=
  if candidates.length = 0 then none
  else
    let f0 := filterCandidates candidates requiredExports importType
    let filteredCandidates := if f0.length = 0 then candidates else f0
    (filteredCandidates.mergeSort (candLe requiredExports importType)).head?

/-- `generateRelativePath` of the repair engine: relative path from
the importer's directory, extension always stripped, `./`-prefixed. -/
def generateRelativePath (fromFile toFile : Path) : String :=
  dotPrefix (stripLangExt5 (relativeStr (dirname fromFile) toFile))

/-- A candidate as the glob + AST collaborators deliver it to
`findFilesByName` (existing path, exported names, default-export flag). -/
structure RawMatch where
  path : Path
  exports : List String
  hasDefault : Bool

/-- The repair environment: the filesystem plus the external glob/AST
collaborator behind `findFilesByName` (patterns, excludes and export
extraction happen outside the engine). -/
structure RepairEnv where
  fs : FS
  findFiles : String → List RawMatch

/-- `findFilesByName`: wrap each collaborator match as a `FileMatch` with
distance 0 (recomputed later) and the name similarity of the candidate's
extension-free basename. -/
def findFilesByName (env : RepairEnv) (fileName : String) : List FileMatch :=
  (env.findFiles fileName).map fun r =>
    { path := r.path
      exports := r.exports
      hasDefault := r.hasDefault
      distance := 0
      similarity :=
        calculateSimilarity fileName
          (dropRightStr (lastSeg r.path) (strLen (extnameStr (lastSeg r.path)))) }

/-- `repairSingleImport`: external specifiers and resolvable paths are
`already_valid`; otherwise search candidates by extracted filename, score
and select, and report `repaired` or `not_found`. -/
def repairSingleImport (env : RepairEnv) (currentFilePath : Path) (originalPath : String)
    (importType : ImportKind) (namedImports : List String) : RepairResult :=
  if strStartsWith originalPath "." = false ∧ strStartsWith originalPath "/" = false then
    { originalPath, repairedPath := none, importType,
      status := .alreadyValid, reason := "External module import" }
  else
    let resolvedPath := resolveImportPathRepair env.fs currentFilePath originalPath
    if (resolvedPath.map env.fs.existsSync).getD false then
      { originalPath, repairedPath := none, importType,
        status := .alreadyValid, reason := "Path already valid" }
    else
      match getFileNameFromPath originalPath with
      | none =>
        { originalPath, repairedPath := none, importType,
          status := .notFound, reason := "Cannot extract filename from path" }
      | some fileName =>
        let candidateFiles := findFilesByName env fileName
        if candidateFiles.length = 0 then
          { originalPath, repairedPath := none, importType,
            status := .notFound, reason := "No matching files found" }
        else
          let scoredCandidates := scoreCandidates candidateFiles currentFilePath
          match selectBestCandidate scoredCandidates namedImports importType with
          | none =>
            { originalPath, repairedPath := none, importType, namedImports,
              status := .notFound, candidateFiles := candidateFiles.map (fun f => f.path),
              reason := "No suitable candidate found" }
          | some bestCandidate =>
            { originalPath,
              repairedPath := some (generateRelativePath currentFilePath bestCandidate.path),
              importType, namedImports,
              status := .repaired,
              candidateFiles := candidateFiles.map (fun f => f.path),
              selectedFile := some bestCandidate.path,
              reason :=
                if namedImports.length > 0 then "Selected based on export matching"
                else "Selected based on proximity" }

/-- The AST view of one import declaration that `repairImportPaths` reads
and mutates (specifier text, kind, named bindings). -/
structure ImportDeclM where
  specifier : String
  importType : ImportKind
  namedImports : List String
deriving DecidableEq

/-- The outcome of one `repairImportPaths` run over a file's import
declarations. -/
structure RepairRunResult where
  repairedImports : List RepairResult
  newImports : List ImportDeclM
  totalImportsChecked : Nat
  totalImportsRepaired : Nat
  saved : Bool
deriving DecidableEq

/-- The per-declaration step of the `repairImportPaths` loop: record the
result and, for a non-dry run with a truthy repaired path, rewrite the
specifier. -/
def repairStep (env : RepairEnv) (filePath : Path) (dryRun : Bool) (d : ImportDeclM) :
    RepairResult × ImportDeclM × Nat :=
  let r := repairSingleImport env filePath d.specifier d.importType d.namedImports
  if r.status = .repaired ∧ r.repairedPath.getD "" ≠ "" then
    (r, if dryRun then d else { d with specifier := r.repairedPath.getD d.specifier }, 1)
  else (r, d, 0)

/-- `repairImportPaths` over the file's import declarations: run
every import through `repairSingleImport`, apply non-dry repairs in place, and
save when anything was repaired. -/
def repairImportPaths (env : RepairEnv) (filePath : Path) (imports : List ImportDeclM)
    (dryRun : Bool) : RepairRunResult :=
  let steps := imports.map (repairStep env filePath dryRun)
  let totalRepaired := (steps.map (fun s => s.2.2)).sum
  { repairedImports := steps.map (fun s => s.1)
    newImports := steps.map (fun s => s.2.1)
    totalImportsChecked := imports.length
    totalImportsRepaired := totalRepaired
    saved := dryRun = false ∧ totalRepaired > 0 }

/-! ### The check-deletable resolver (`resolveModulePath`) -/

/-- The probe list of `resolveModulePath` in the check-deletable analysis:
the literal path first, then `.ts`, `.tsx`, `.js`, `.jsx`, then the four
`index` files — no `.d.ts` probes. -/
def moduleProbeList (resolved : Path) : List Path :=
  [resolved,
   addExt resolved ".ts", addExt resolved ".tsx",
   addExt resolved ".js", addExt resolved ".jsx",
   resolved ++ ["index.ts"], resolved ++ ["index.tsx"],
   resolved ++ ["index.js"], resolved ++ ["index.jsx"]]

/-- `resolveModulePath` of the check-deletable analysis: the first
existing probe wins and is returned through `realpathSync`. -/
def resolveModulePath (fs : FS) (sourceFilePath : Path) (moduleSpecifier : String) : Option Path :=
  let resolvedPath := resolveSpec (dirname sourceFilePath) moduleSpecifier
  (firstExisting fs (moduleProbeList resolvedPath)).map fs.real

/-! ### The file-move per-import rewrite (`updateImportPaths`) -/

/-- The `possiblePaths` a relative import is matched against in the
file-move `updateImportPaths`. -/
def movePossiblePaths (resolved : Path) : List Path :=
  [resolved, addExt resolved ".ts", addExt resolved ".tsx",
   resolved ++ ["index.ts"], resolved ++ ["index.tsx"]]

/-- One import (or re-export) specifier of one importer under the
file-move `updateImportPaths`: when one of the possible paths is the
moved file, the specifier is replaced by `createOptimalImportPath`
(which never consults the original specifier). -/
def moveRewriteSpec (fs : FS) (importerDir : Path) (oldPath newPath : Path) (spec : String) :
    String :=
  if strStartsWith spec "." then
    let resolvedPath := resolveSpec importerDir spec
    if decide (oldPath ∈ movePossiblePaths resolvedPath) then
      createOptimalImportPath fs importerDir newPath
    else spec
  else spec

/-! ### The cycle detector (`visualize-dependencies`) -/

/-- A node of the dependency graph (`DependencyNode`); the `type`,
`exports` and `size` fields of the source play no role in detection and
are omitted. -/
structure DependencyNode where
  id : String
  filePath : Path
  imports : List String
deriving DecidableEq

/-- Severity of a reported cycle. -/
inductive Severity where
  | warning
  | error
deriving DecidableEq

/-- A reported cycle (`CircularDependency`). -/
structure CircularDependency where
  cycle : List String
  severity : Severity
  suggestion : String
deriving DecidableEq

/-- `generateCircularSuggestion` of the source. -/
def generateCircularSuggestion (cycle : List String) : String :=
  if cycle.length = 2 then "Consider moving shared functionality to a separate module"
  else if cycle.length = 3 then "Try dependency injection or create an intermediate interface"
  else "Consider restructuring modules or using dependency injection"

/-- The mutable state threaded through the DFS of
`detectCircularDependencies` (insertion-ordered sets as lists). -/
structure DfsState where
  visited : List String
  recursionStack : List String
  circularDeps : List CircularDependency
deriving DecidableEq

/-- The recursive `dfs` of `detectCircularDependencies`, with explicit
fuel standing in for the call stack (the driver supplies more fuel than
any reachable depth).  A node on the recursion stack closes a cycle — the
suffix of the current path from its first occurrence plus the node again;
a fully visited node is skipped; otherwise the node is marked, its
relative (`.`-leading) imports are followed, and it is popped. -/
def dfsDetect (nodeMap : String → Option DependencyNode) :
    Nat → String → List String → DfsState → DfsState
  | 0, _, _, st => st
  | fuel + 1, nodeId, path, st =>
    if decide (nodeId ∈ st.recursionStack) then
      let cycleStart := path.indexOf nodeId
      let cycle := path.drop cycleStart ++ [nodeId]
      { st with
        circularDeps := st.circularDeps ++
          [{ cycle
             severity := if 3 < cycle.length then .error else .warning
             suggestion := generateCircularSuggestion cycle }] }
    else if decide (nodeId ∈ st.visited) then st
    else
      let st1 : DfsState :=
        { st with
          visited := st.visited ++ [nodeId]
          recursionStack := st.recursionStack ++ [nodeId] }
      let st2 :=
        match nodeMap nodeId with
        | some node =>
          node.imports.foldl
            (fun s importPath =>
              if strStartsWith importPath "." then
                dfsDetect nodeMap fuel importPath (path ++ [nodeId]) s
              else s)
            st1
        | none => st1
      { st2 with recursionStack := st2.recursionStack.erase nodeId }

/-- Fuel bound for the DFS: more than the number of identifiers that can
ever be marked visited. -/
def detectFuel (nodes : List DependencyNode) : Nat :=
  nodes.length + (nodes.map (fun n => n.imports.length)).sum + 2

/-- `detectCircularDependencies`: `new Map(nodes.map(n => [n.id, n]))`
keeps the last node for a duplicated id, then a DFS is started from every
node not yet visited. -/
def detectCircularDependencies (nodes : List DependencyNode) : List CircularDependency :=
  let nodeMap := fun id => nodes.reverse.find? (fun n => n.id = id)
  (nodes.foldl
      (fun st node =>
        if decide (node.id ∈ st.visited) then st
        else dfsDetect nodeMap (detectFuel nodes) node.id [] st)
      ⟨[], [], []⟩).circularDeps

/-- The AST view of one source file as `createDependencyNode` reads it. -/
structure SrcFile where
  filePath : Path
  importSpecifiers : List String

/-- `createDependencyNode`: the id is the root-relative path; a
relative import is recorded as the root-relative form of its resolved path, any
other specifier verbatim. -/
def createDependencyNode (rootPath : Path) (f : SrcFile) : DependencyNode :=
  { id := relativeStr rootPath f.filePath
    filePath := f.filePath
    imports :=
      f.importSpecifiers.map fun moduleSpecifier =>
        if strStartsWith moduleSpecifier "." then
          relativeStr rootPath (resolveSpec (dirname f.filePath) moduleSpecifier)
        else moduleSpecifier }

/-- `buildDependencyGraph`: skip files deeper than `maxDepth` (depth is
the segment count of the root-relative path), build a node per remaining
file. -/
def buildDependencyGraph (files : List SrcFile) (rootPath : Path) (maxDepth : Nat) :
    List DependencyNode :=
  (files.filter fun f =>
      decide ((splitSlash (relativeStr rootPath f.filePath)).length ≤ maxDepth)).map
    (createDependencyNode rootPath)

/-! ### The import-optimization passes (`src/services/import-optimization/index.ts`) -/

/-- One named import binding (`{ name as alias }`, possibly `type`). -/
structure NamedImp where
  name : String
  alias? : Option String := none
  isTypeOnly : Bool := false
deriving DecidableEq

/-- The AST view of one import declaration as the optimizer reads it. -/
structure ImportDeclO where
  specifier : String
  isTypeOnly : Bool := false
  defaultImport : Option String := none
  namespaceImport : Option String := none
  namedImports : List NamedImp := []
deriving DecidableEq

/-- The identifier occurrences contributed by one import declaration
(default name, namespace name, named names and aliases) — these are what
`isIdentifierUsed` sees when scanning a different declaration. -/
def declIdents (d : ImportDeclO) : List String :=
  d.defaultImport.toList ++ d.namespaceImport.toList ++
    d.namedImports.flatMap (fun ni => ni.name :: ni.alias?.toList)

/-- The AST view of a source file for the optimizer: its import
declarations, every identifier occurrence outside them, and the oracle of
identifiers used in type positions (`isTypeIdentifier`). -/
structure SourceFileO where
  imports : List ImportDeclO
  bodyIdents : List String
  typeContextIdents : List String := []
deriving DecidableEq

/-- `optimizeIndexImportPaths`: drop a trailing `/index` from relative
specifiers. -/
def runOptimizeIndexPaths (imports : List ImportDeclO) : List ImportDeclO :=
  imports.map fun d =>
    if strStartsWith d.specifier "." && strEndsWith d.specifier "/index" then
      { d with specifier := dropRightStr d.specifier 6 }
    else d

/-- The collection step of `consolidateImportsFromSameModule` over one
specifier group: first default, first namespace, deduplicated
named imports split into type and value names (aliases are dropped, as in the
reconstructed text). -/
def collectGroup (group : List ImportDeclO) :
    Option String × Option String × List String × List String :=
  group.foldl
    (fun acc d =>
      let acc1 := (acc.1 <|> d.defaultImport, acc.2.1 <|> d.namespaceImport, acc.2.2)
      let (tys, vals) :=
        d.namedImports.foldl
          (fun (tv : List String × List String) ni =>
            if decide (ni.name ∈ tv.1 ++ tv.2) then tv
            else if d.isTypeOnly || ni.isTypeOnly then (tv.1 ++ [ni.name], tv.2)
            else (tv.1, tv.2 ++ [ni.name]))
          acc1.2.2
      (acc1.1, acc1.2.1, tys, vals))
    (none, none, [], [])

/-- The declarations that replace a multi-import group: the `import type`
statement (when any type names) then the consolidated value statement
(when any default/namespace/value part); an all-empty group keeps its
first declaration unchanged. -/
def consolidatedDecls (first : ImportDeclO) (group : List ImportDeclO) : List ImportDeclO :=
  let c := collectGroup group
  let typeDecl : List ImportDeclO :=
    if c.2.2.1.length > 0 then
      [{ specifier := first.specifier, isTypeOnly := true,
         namedImports := c.2.2.1.map (fun n => { name := n }) }]
    else []
  let valueDecl : List ImportDeclO :=
    if c.1.isSome || c.2.1.isSome || c.2.2.2.length > 0 then
      [{ specifier := first.specifier, isTypeOnly := false,
         defaultImport := c.1, namespaceImport := c.2.1,
         namedImports := c.2.2.2.map (fun n => { name := n }) }]
    else []
  if (typeDecl ++ valueDecl).length > 0 then typeDecl ++ valueDecl else [first]

/-- `consolidateImportsFromSameModule`: groups keyed by specifier in
first-occurrence order; a singleton group is untouched, a larger group is
replaced at its first member's position. -/
def runConsolidate (imports : List ImportDeclO) : List ImportDeclO :=
  (imports.foldl
      (fun (acc : List ImportDeclO × List String) d =>
        if decide (d.specifier ∈ acc.2) then acc
        else
          let group := imports.filter (fun x => x.specifier = d.specifier)
          if group.length > 1 then
            (acc.1 ++ consolidatedDecls d group, acc.2 ++ [d.specifier])
          else (acc.1 ++ [d], acc.2 ++ [d.specifier]))
      ([], [])).1

/-- The single step of `removeUnusedImports` on declaration `d`, given
the identifier occurrences everywhere else in the file (`others`): type-only
declarations are skipped; unused named bindings are removed; a declaration
with no used binding at all is removed entirely (an unused default import
attached to used named imports is recorded but not removed, as in the
source). -/
def removeUnusedStep (others : List String) (d : ImportDeclO) : List ImportDeclO :=
  if d.isTypeOnly then [d]
  else
    let defaultUsed := (d.defaultImport.map (fun n => decide (n ∈ others))).getD false
    let namespaceUsed := (d.namespaceImport.map (fun n => decide (n ∈ others))).getD false
    let usedNamed := d.namedImports.filter (fun ni => decide (ni.name ∈ others))
    let hasUsedImports := defaultUsed || namespaceUsed || usedNamed.length > 0
    if hasUsedImports then [{ d with namedImports := usedNamed }] else []

/-- `removeUnusedImports`: iterate over a snapshot of the declarations;
each check sees the body identifiers plus the identifiers of the already
processed (kept) prefix and of the not yet processed suffix — but not the
declaration's own. -/
def runRemoveUnused (bodyIdents : List String) (imports : List ImportDeclO) :
    List ImportDeclO :=
  go [] imports
where
  go (pre : List ImportDeclO) : List ImportDeclO → List ImportDeclO
    | [] => pre
    | d :: suf =>
      let others := bodyIdents ++ pre.flatMap declIdents ++ suf.flatMap declIdents
      go (pre ++ removeUnusedStep others d) suf

/-- `separateTypeAndValueImports`: a non-type-only declaration whose
named imports mix type-context and value names is replaced by an `import type`
statement followed by a value statement (default and namespace parts are
dropped by the reconstructed text, as in the source). -/
def runSeparate (typeContextIdents : List String) (imports : List ImportDeclO) :
    List ImportDeclO :=
  imports.flatMap fun d =>
    if d.isTypeOnly then [d]
    else
      let typeImports := d.namedImports.filter (fun ni => decide (ni.name ∈ typeContextIdents))
      let valueImports := d.namedImports.filter (fun ni => decide (ni.name ∉ typeContextIdents))
      if typeImports.length > 0 ∧ valueImports.length > 0 then
        [{ specifier := d.specifier, isTypeOnly := true,
           namedImports := typeImports.map (fun ni => { name := ni.name }) },
         { specifier := d.specifier, isTypeOnly := false,
           namedImports := valueImports.map (fun ni => { name := ni.name }) }]
      else [d]

/-- The result record of `optimizeImports` (content comparison modelled at
the import-declaration level). -/
structure OptimizeResult where
  imports : List ImportDeclO
  optimized : Bool
deriving DecidableEq

/-- `optimizeImports`: index-path optimization, consolidation, unused
removal, type separation — in that order — with `optimized` reporting
whether the file changed. -/
def optimizeImports (file : SourceFileO) (removeUnused : Bool := true)
    (optimizeIndexPaths : Bool := true) (consolidateImports : Bool := true)
    (separateTypeImports : Bool := true) : OptimizeResult :=
  let i1 := if optimizeIndexPaths then runOptimizeIndexPaths file.imports else file.imports
  let i2 := if consolidateImports then runConsolidate i1 else i1
  let i3 := if removeUnused then runRemoveUnused file.bodyIdents i2 else i2
  let i4 := if separateTypeImports then runSeparate file.typeContextIdents i3 else i3
  { imports := i4, optimized := decide (i4 ≠ file.imports) }

/-! ### The rename orchestrator (`renameFileOrFolder`) -/

/-- A filesystem mutation performed by the rename orchestrator. -/
inductive MutationM where
  | save (file : Path)
  | renameFs (src dst : Path)
deriving DecidableEq

/-- The AST view of one project file for the rename updaters. -/
structure ProjectFile where
  filePath : Path
  importSpecs : List String
  exportSpecs : List String := []
  dynamicImportSpecs : List String := []
deriving DecidableEq

/-- The file-flow rewrite guard:
`resolvedPath === oldAbsPath || resolvedPath.startsWith(oldAbsPath + '/')`. -/
def fileFlowGuard (fs : FS) (oldAbs : Path) (filePath : Path) (spec : String) : Bool :=
  match resolveImportPathRename fs filePath spec with
  | .external s =>
    decide (s = pathToStr oldAbs) || strStartsWith s (strCat (pathToStr oldAbs) "/")
  | .path p =>
    decide (p = oldAbs) || strStartsWith (pathToStr p) (strCat (pathToStr oldAbs) "/")

/-- The directory-flow rewrite guard: `resolvedPath.startsWith(oldAbsPath)`
(a bare string-prefix test). -/
def dirFlowGuard (fs : FS) (oldAbs : Path) (filePath : Path) (spec : String) : Bool :=
  match resolveImportPathRename fs filePath spec with
  | .external s => strStartsWith s (pathToStr oldAbs)
  | .path p => strStartsWith (pathToStr p) (pathToStr oldAbs)

/-- Rewrite one specifier list of one file, collecting the affected-import
records. -/
def rewriteSpecList (fs : FS) (oldAbs newAbs : Path) (filePath : Path)
    (guard : FS → Path → Path → String → Bool) (newFromFilePath : Option Path)
    (specs : List String) : List String × List (Path × String × String) :=
  specs.foldl
    (fun acc spec =>
      if guard fs oldAbs filePath spec then
        let newImportPath := calculateNewImportPath fs filePath oldAbs newAbs spec newFromFilePath
        (acc.1 ++ [newImportPath], acc.2 ++ [(filePath, spec, newImportPath)])
      else (acc.1 ++ [spec], acc.2))
    ([], [])

/-- The shared per-file body of `updateImportsForFile` and
`updateImportsForDirectory`: imports, re-exports and dynamic imports are
rewritten with the same guard. -/
def updateOneFile (fs : FS) (oldAbs newAbs : Path)
    (guard : FS → Path → Path → String → Bool) (newFromFilePath : Option Path)
    (file : ProjectFile) : ProjectFile × List (Path × String × String) :=
  let ri := rewriteSpecList fs oldAbs newAbs file.filePath guard newFromFilePath file.importSpecs
  let re := rewriteSpecList fs oldAbs newAbs file.filePath guard newFromFilePath file.exportSpecs
  let rd := rewriteSpecList fs oldAbs newAbs file.filePath guard newFromFilePath
    file.dynamicImportSpecs
  ({ file with importSpecs := ri.1, exportSpecs := re.1, dynamicImportSpecs := rd.1 },
   ri.2 ++ re.2 ++ rd.2)

/-- `updateImportsForFile`: every project file is scanned with the
file-flow guard; files with any rewrite are collected as updated. -/
def updateImportsForFile (fs : FS) (files : List ProjectFile) (oldAbs newAbs : Path) :
    List Path × List (Path × String × String) :=
  files.foldl
    (fun acc file =>
      let r := updateOneFile fs oldAbs newAbs fileFlowGuard none file
      (if r.2.length > 0 then acc.1 ++ [file.filePath] else acc.1, acc.2 ++ r.2))
    ([], [])

/-- `updateImportsForDirectory`: the directory-flow guard, and importers
inside the moved directory are re-relativised from their post-move
location. -/
def updateImportsForDirectory (fs : FS) (files : List ProjectFile) (oldAbs newAbs : Path) :
    List Path × List (Path × String × String) :=
  files.foldl
    (fun acc file =>
      let newFilePath :=
        if strStartsWith (pathToStr file.filePath) (pathToStr oldAbs) then
          some (replacePrefixPath file.filePath oldAbs newAbs)
        else none
      let r := updateOneFile fs oldAbs newAbs dirFlowGuard newFilePath file
      (if r.2.length > 0 then acc.1 ++ [file.filePath] else acc.1, acc.2 ++ r.2))
    ([], [])

/-- The result record of `renameFileOrFolder`, extended with the list of
filesystem mutations the run performs (saves of updated files, then the
physical rename). -/
structure FileRenameResultM where
  success : Bool
  error : Option String := none
  updatedFiles : List Path := []
  affectedImports : List (Path × String × String) := []
  isDirectory : Option Bool := none
  mutations : List MutationM := []
deriving DecidableEq

/-- `renameFileOrFolder`: a missing source or an existing destination is a
failed result before anything is loaded or touched; otherwise imports are
updated (per file or per directory), every updated file is saved, and the
path is renamed. -/
def renameFileOrFolder (fs : FS) (projectFiles : List ProjectFile)
    (sourcePath destinationPath : Path) (updateImports : Bool := true) : FileRenameResultM :=
  if fs.existsSync sourcePath = false then
    { success := false
      error := some (strCat "Source path not found: " (pathToStr sourcePath)) }
  else
    let isDirectory := fs.isDir sourcePath
    if fs.existsSync destinationPath then
      { success := false
        error := some (strCat "Destination already exists: " (pathToStr destinationPath)) }
    else
      let upd :=
        if updateImports then
          if isDirectory then updateImportsForDirectory fs projectFiles sourcePath destinationPath
          else updateImportsForFile fs projectFiles sourcePath destinationPath
        else ([], [])
      { success := true
        updatedFiles := upd.1
        affectedImports := upd.2
        isDirectory := some isDirectory
        mutations := upd.1.map MutationM.save ++ [MutationM.renameFs sourcePath destinationPath] }

/-! ## Generic helpers -/

/-- A predicate preserved by every step of a fold is preserved by the fold. -/
theorem foldl_preserve_mem {α β : Type _} (P : β → Prop) :
    ∀ (l : List α) (f : β → α → β), (∀ b a, a ∈ l → P b → P (f b a)) →
      ∀ b, P b → P (l.foldl f b) := by
  intro l
  induction l with
  | nil => intro f _ b hb; simpa using hb
  | cons x xs ih =>
    intro f hf b hb
    simpa using ih f (fun b a ha hb => hf b a (by simp [ha]) hb) (f b x)
      (hf b x (by simp) hb)

/-! ## C1: cycle severity -/

/-- Every cycle the DFS ever records carries severity `error` exactly when
its recorded path (with the closing node repeated) is longer than 3. -/
theorem dfsDetect_severity (nm : String → Option DependencyNode) :
    ∀ (fuel : Nat) (nodeId : String) (path : List String) (st : DfsState),
      (∀ c ∈ st.circularDeps, (c.severity = Severity.error ↔ 3 < c.cycle.length)) →
      ∀ c ∈ (dfsDetect nm fuel nodeId path st).circularDeps,
        (c.severity = Severity.error ↔ 3 < c.cycle.length) := by
  intro fuel
  induction fuel with
  | zero => intro nodeId path st h; simpa [dfsDetect] using h
  | succ fuel ih =>
    intro nodeId path st h
    simp only [dfsDetect]
    by_cases h1 : nodeId ∈ st.recursionStack
    · rw [if_pos (show decide (nodeId ∈ st.recursionStack) = true by simp [h1])]
      intro c hc
      rcases List.mem_append.mp hc with hc | hc
      · exact h c hc
      · have hc' := List.mem_singleton.mp hc
        subst hc'
        show (if 3 < (path.drop (path.indexOf nodeId) ++ [nodeId]).length then Severity.error
            else Severity.warning) = Severity.error ↔
          3 < (path.drop (path.indexOf nodeId) ++ [nodeId]).length
        by_cases h4 : 3 < (path.drop (path.indexOf nodeId) ++ [nodeId]).length
        · rw [if_pos h4]
          exact ⟨fun _ => h4, fun _ => rfl⟩
        · rw [if_neg h4]
          exact ⟨fun hw => absurd hw (by decide), fun hl => absurd hl h4⟩
    · rw [if_neg (show ¬ decide (nodeId ∈ st.recursionStack) = true by simp [h1])]
      by_cases h2 : nodeId ∈ st.visited
      · rw [if_pos (show decide (nodeId ∈ st.visited) = true by simp [h2])]
        exact h
      · rw [if_neg (show ¬ decide (nodeId ∈ st.visited) = true by simp [h2])]
        cases hnm : nm nodeId with
        | none =>
          simp only [hnm]
          exact h
        | some node =>
          simp only [hnm]
          intro c hc
          refine foldl_preserve_mem
            (fun s : DfsState =>
              ∀ c ∈ s.circularDeps, (c.severity = Severity.error ↔ 3 < c.cycle.length))
            node.imports _ ?_
            ⟨st.visited ++ [nodeId], st.recursionStack ++ [nodeId], st.circularDeps⟩ h c hc
          intro b a _ hb
          by_cases ha : strStartsWith a "." = true
          · simp only [ha, if_true]
            exact ih a (path ++ [nodeId]) b hb
          · simp only [ha, if_false]
            exact hb

/-- The 3-node cycle of the claim, with relative ids so the DFS follows
the edges. -/
def cycleNodes3 : List DependencyNode :=
  [{ id := "./a", filePath := ["r", "a.ts"], imports := ["./b"] },
   { id := "./b", filePath := ["r", "b.ts"], imports := ["./c"] },
   { id := "./c", filePath := ["r", "c.ts"], imports := ["./a"] }]

/-- A 4-node cycle. -/
def cycleNodes4 : List DependencyNode :=
  [{ id := "./a", filePath := ["r", "a.ts"], imports := ["./b"] },
   { id := "./b", filePath := ["r", "b.ts"], imports := ["./c"] },
   { id := "./c", filePath := ["r", "c.ts"], imports := ["./d"] },
   { id := "./d", filePath := ["r", "d.ts"], imports := ["./a"] }]

/-- C1, counterexample: on the 3-node cycle A→B→C→A the detector reports
exactly one cycle, but its severity is `error`, not `warning` as the
claim states — the recorded cycle path repeats the closing node, so its
length is 4 and the `cycle.length > 3` test fires. -/
theorem cycle3_reported_error_not_warning :
    (detectCircularDependencies cycleNodes3).map (fun c => (c.cycle, c.severity)) =
      [(["./a", "./b", "./c", "./a"], Severity.error)] ∧
    Severity.error ≠ Severity.warning := by
  exact ⟨by decide, by decide⟩

/-- C1, amended: the detector reports exactly one cycle for the 3-node
cycle and for the 4-node cycle, both with severity `error`; in general a
reported cycle has severity `error` iff its recorded path length (the
distinct nodes plus the repeated closing node) exceeds 3 — equivalently,
iff the cycle has more than 2 distinct nodes, so only 2-node (and
degenerate self-loop) cycles are `warning`s. -/
theorem detectCircular_severity_amended :
    (detectCircularDependencies cycleNodes3).map (fun c => (c.cycle, c.severity)) =
      [(["./a", "./b", "./c", "./a"], Severity.error)] ∧
    (detectCircularDependencies cycleNodes4).map (fun c => (c.cycle, c.severity)) =
      [(["./a", "./b", "./c", "./d", "./a"], Severity.error)] ∧
    ∀ (nodes : List DependencyNode) (c : CircularDependency),
      c ∈ detectCircularDependencies nodes →
      (c.severity = Severity.error ↔ 3 < c.cycle.length) := by
  refine ⟨by decide, by decide, ?_⟩
  intro nodes c hc
  simp only [detectCircularDependencies] at hc
  refine foldl_preserve_mem
    (fun st : DfsState =>
      ∀ c ∈ st.circularDeps, (c.severity = Severity.error ↔ 3 < c.cycle.length))
    nodes _ ?_ ⟨[], [], []⟩ (by simp) c hc
  intro st node _ hst
  by_cases hv : node.id ∈ st.visited
  · simpa [hv] using hst
  · simpa [hv] using
      dfsDetect_severity _ (detectFuel nodes) node.id [] st hst

/-- The one cycle the detector reports on `cycleNodes3`. -/
def reportedCycle3 : CircularDependency :=
  { cycle := ["./a", "./b", "./c", "./a"]
    severity := Severity.error
    suggestion := "Consider restructuring modules or using dependency injection" }

/-- C1, witness for the amended theorem at the 3-node cycle. -/
theorem detectCircular_severity_amended_witness :
    reportedCycle3 ∈ detectCircularDependencies cycleNodes3 ∧
    (reportedCycle3.severity = Severity.error ↔ 3 < reportedCycle3.cycle.length) :=
  ⟨by decide, detectCircular_severity_amended.2.2 cycleNodes3 reportedCycle3 (by decide)⟩

/-! ## C7: rename validation atomicity -/

/-- C7: when the source path is missing or the destination already
exists, `renameFileOrFolder` returns a failed result carrying an error
message and performs no filesystem mutation — no import edit is saved and
nothing is moved. -/
theorem renameFileOrFolder_validation_atomic
    (fs : FS) (projectFiles : List ProjectFile) (sourcePath destinationPath : Path)
    (updateImports : Bool)
    (h : fs.existsSync sourcePath = false ∨ fs.existsSync destinationPath = true) :
    (renameFileOrFolder fs projectFiles sourcePath destinationPath updateImports).success =
        false ∧
    (renameFileOrFolder fs projectFiles sourcePath destinationPath updateImports).error.isSome =
        true ∧
    (renameFileOrFolder fs projectFiles sourcePath destinationPath updateImports).mutations =
        [] := by
  by_cases hs : fs.existsSync sourcePath = false
  · simp [renameFileOrFolder, hs]
  · rcases h with h | h
    · exact absurd h hs
    · simp [renameFileOrFolder, hs, h]

/-- C7, witness: renaming a missing source mutates nothing. -/
theorem renameFileOrFolder_validation_atomic_witness :
    (renameFileOrFolder { entries := [["r"], ["r", "dst.ts"]] } [] ["r", "src.ts"]
        ["r", "dst.ts"] true).success = false ∧
    (renameFileOrFolder { entries := [["r"], ["r", "dst.ts"]] } [] ["r", "src.ts"]
        ["r", "dst.ts"] true).error.isSome = true ∧
    (renameFileOrFolder { entries := [["r"], ["r", "dst.ts"]] } [] ["r", "src.ts"]
        ["r", "dst.ts"] true).mutations = [] :=
  renameFileOrFolder_validation_atomic _ _ _ _ _ (Or.inl (by decide))

/-! ## C10: the `multiple_matches` status is never produced -/

/-- The first component of a repair step is always the
`repairSingleImport` result itself. -/
theorem repairStep_fst (env : RepairEnv) (filePath : Path) (dryRun : Bool) (d : ImportDeclM) :
    (repairStep env filePath dryRun d).1 =
      repairSingleImport env filePath d.specifier d.importType d.namedImports := by
  by_cases h :
      (repairSingleImport env filePath d.specifier d.importType d.namedImports).status =
          RepairStatus.repaired ∧
        (repairSingleImport env filePath d.specifier d.importType
              d.namedImports).repairedPath.getD "" ≠ "" <;>
    simp [repairStep, h]

/-- `repairSingleImport` only ever reports `already_valid`, `not_found`
or `repaired`. -/
theorem repairSingleImport_no_multiple (env : RepairEnv) (currentFilePath : Path)
    (originalPath : String) (importType : ImportKind) (namedImports : List String) :
    (repairSingleImport env currentFilePath originalPath importType namedImports).status ≠
      RepairStatus.multipleMatches := by
  by_cases h1 : strStartsWith originalPath "." = false ∧ strStartsWith originalPath "/" = false
  · simp [repairSingleImport, h1]
  · by_cases h2 :
      (Option.map env.fs.existsSync
          (resolveImportPathRepair env.fs currentFilePath originalPath)).getD false = true
    · simp [repairSingleImport, h1, h2]
    · cases h3 : getFileNameFromPath originalPath with
      | none => simp [repairSingleImport, h1, h2, h3]
      | some fn =>
        by_cases h4 : (findFilesByName env fn).length = 0
        · simp [repairSingleImport, h1, h2, h3, h4]
        · cases h5 : selectBestCandidate (scoreCandidates (findFilesByName env fn)
              currentFilePath) namedImports importType with
          | none => simp [repairSingleImport, h1, h2, h3, h4, h5]
          | some best => simp [repairSingleImport, h1, h2, h3, h4, h5]

/-- C10: no run of `repairImportPaths` ever produces a `RepairResult`
whose status is `multiple_matches`, even though the status type declares
it. -/
theorem repair_status_never_multiple_matches
    (env : RepairEnv) (filePath : Path) (imports : List ImportDeclM) (dryRun : Bool) :
    ∀ r ∈ (repairImportPaths env filePath imports dryRun).repairedImports,
      r.status ≠ RepairStatus.multipleMatches := by
  intro r hr
  simp only [repairImportPaths, List.map_map, List.mem_map, Function.comp] at hr
  obtain ⟨d, _, hd⟩ := hr
  rw [← hd, repairStep_fst]
  exact repairSingleImport_no_multiple env filePath d.specifier d.importType d.namedImports

/-- A one-import environment for the C10 witness. -/
def envC10 : RepairEnv :=
  { fs := { entries := [["p"], ["p", "a.ts"], ["p", "b.ts"]] }
    findFiles := fun n => if n = "b" then [⟨["p", "b.ts"], ["f"], false⟩] else [] }

/-- C10, witness at a concrete import declaration. -/
theorem repair_status_never_multiple_matches_witness :
    (repairSingleImport envC10 ["p", "a.ts"] "react" ImportKind.named ["f"]) ∈
      (repairImportPaths envC10 ["p", "a.ts"] [⟨"react", ImportKind.named, ["f"]⟩]
          false).repairedImports ∧
    (repairSingleImport envC10 ["p", "a.ts"] "react" ImportKind.named ["f"]).status ≠
      RepairStatus.multipleMatches :=
  ⟨by decide,
   repair_status_never_multiple_matches envC10 ["p", "a.ts"]
     [⟨"react", ImportKind.named, ["f"]⟩] false _ (by decide)⟩

/-! ## C2: probe order of the two resolvers -/

/-- A filesystem where the literal path of an extension-qualified
specifier exists. -/
def fsC2 : FS := { entries := [["p"], ["p", "a.ts"], ["p", "b.ts"]] }

/-- C2, counterexample: `/p/b.ts` exists, so the claimed literal-first
probe order would resolve `./b.ts` from `/p/a.ts` to it; the repair
resolver, which never probes the literal path, returns unresolved — while
the check-deletable resolver does resolve it. -/
theorem repair_resolver_misses_literal_path :
    fsC2.existsSync (resolveSpec (dirname ["p", "a.ts"]) "./b.ts") = true ∧
    resolveImportPathRepair fsC2 ["p", "a.ts"] "./b.ts" = none ∧
    resolveModulePath fsC2 ["p", "a.ts"] "./b.ts" = some ["p", "b.ts"] :=
  ⟨by decide, by decide, by decide⟩

/-- Nothing in the probe list of a path exists in an empty filesystem. -/
theorem firstExisting_eq_none (fs : FS) :
    ∀ l : List Path, (∀ p ∈ l, fs.existsSync p = false) → firstExisting fs l = none := by
  intro l
  induction l with
  | nil => intro _; rfl
  | cons p ps ih =>
    intro h
    simp only [firstExisting, h p (by simp), Bool.false_eq_true, if_false]
    exact ih fun q hq => h q (by simp [hq])

/-- C2, amended: the check-deletable resolver (`resolveModulePath`)
probes the literal path first — an existing literal target always wins
and is returned through `realpathSync` — and then only `.ts`, `.tsx`,
`.js`, `.jsx` and the four `index` files (never `.d.ts`); the repair
resolver (`resolveImportPath`) never probes the literal path: it probes
exactly path plus each of `.ts`, `.tsx`, `.js`, `.jsx`, `.d.ts` and then
`index` with the same five extensions, so when none of those ten probes
exists it reports unresolved even if the literal path itself exists. -/
theorem resolver_probe_order_amended :
    (∀ (fs : FS) (sourceFilePath : Path) (spec : String),
        fs.existsSync (resolveSpec (dirname sourceFilePath) spec) = true →
        resolveModulePath fs sourceFilePath spec =
          some (fs.real (resolveSpec (dirname sourceFilePath) spec))) ∧
    (∀ (fs : FS) (currentFilePath : Path) (spec : String),
        (∀ p ∈ repairProbeList (resolveSpec (dirname currentFilePath) spec),
            fs.existsSync p = false) →
        resolveImportPathRepair fs currentFilePath spec = none) := by
  constructor
  · intro fs sfp spec h
    simp [resolveModulePath, moduleProbeList, firstExisting, h]
  · intro fs cfp spec h
    simp only [resolveImportPathRepair]
    exact firstExisting_eq_none fs _ h

/-- C2, witness: the literal hit for the check-deletable resolver, and an
unresolvable specifier for the repair resolver. -/
theorem resolver_probe_order_amended_witness :
    resolveModulePath fsC2 ["p", "a.ts"] "./b.ts" =
      some (fsC2.real (resolveSpec (dirname ["p", "a.ts"]) "./b.ts")) ∧
    resolveImportPathRepair fsC2 ["p", "a.ts"] "./zzz" = none :=
  ⟨resolver_probe_order_amended.1 fsC2 ["p", "a.ts"] "./b.ts" (by decide),
   resolver_probe_order_amended.2 fsC2 ["p", "a.ts"] "./zzz" (by decide)⟩

/-! ## C3, C4, C5, C8: counterexamples -/

/-- The tree before the C3 move: `/p/a.ts` imports `./b` (resolving to
`/p/b.ts`), and `/p/c.ts` also exists. -/
def fsC3pre : FS := { entries := [["p"], ["p", "a.ts"], ["p", "b.ts"], ["p", "c.ts"]] }

/-- The tree after moving `/p/b.ts` to `/p/c.tsx`. -/
def fsC3post : FS := { entries := [["p"], ["p", "a.ts"], ["p", "c.ts"], ["p", "c.tsx"]] }

/-- C3, counterexample: `/p/a.ts` imports `./b`, which resolves to
`/p/b.ts`; after moving it to `/p/c.tsx` the rewritten specifier is
`./c`, and re-resolving `./c` from `/p/a.ts` probes `.ts` before `.tsx`
and lands on the pre-existing sibling `/p/c.ts` — not on the moved
file. -/
theorem rename_roundtrip_shadowed_counterexample :
    resolveImportPathRename fsC3pre ["p", "a.ts"] "./b" = ResolveOut.path ["p", "b.ts"] ∧
    calculateNewImportPath fsC3pre ["p", "a.ts"] ["p", "b.ts"] ["p", "c.tsx"] "./b" = "./c" ∧
    fsC3post.existsSync ["p", "c.tsx"] = true ∧
    resolveImportPathRename fsC3post ["p", "a.ts"] "./c" = ResolveOut.path ["p", "c.ts"] ∧
    (["p", "c.ts"] : Path) ≠ ["p", "c.tsx"] :=
  ⟨by decide, by decide, by decide, by decide, by decide⟩

/-- The tree for the C4 counterexample: no index files near the target. -/
def fsC4 : FS :=
  { entries := [["r"], ["r", "a.ts"], ["r", "oldStyle.ts"], ["r", "lib"],
                ["r", "lib", "oldStyle.ts"]] }

/-- C4, counterexample: a consumer in `/r` imports `./oldStyle.ts` (with
extension); after the file-move of `/r/oldStyle.ts` to
`/r/lib/oldStyle.ts`, `updateImportPaths` rewrites the specifier via
`createOptimalImportPath`, which ignores the original specifier and
always strips the extension — the rewritten specifier does not retain
`.ts`. -/
theorem file_move_strips_extension_counterexample :
    moveRewriteSpec fsC4 ["r"] ["r", "oldStyle.ts"] ["r", "lib", "oldStyle.ts"]
        "./oldStyle.ts" = "./lib/oldStyle" ∧
    strEndsWith "./lib/oldStyle" ".ts" = false :=
  ⟨by decide, by decide⟩

/-- The tree for the C5 counterexample: `utils/index.ts` about to move to
`helpers/`. -/
def fsC5 : FS :=
  { entries := [["r"], ["r", "a.ts"], ["r", "utils"], ["r", "utils", "index.ts"]] }

/-- C5, counterexample: when `/r/utils` (containing `index.ts`) is
renamed to `/r/helpers`, a consumer importing `./utils/index` is
rewritten by `calculateNewImportPath` to `./helpers/index` — the
`/index` suffix is preserved because the original specifier ended with
it, contradicting the claim that every such importer ends up with the
bare `./helpers`. -/
theorem rename_keeps_index_suffix_counterexample :
    calculateNewImportPath fsC5 ["r", "a.ts"] ["r", "utils"] ["r", "helpers"]
        "./utils/index" = "./helpers/index" ∧
    strEndsWith "./helpers/index" "/index" = true ∧
    ("./helpers/index" : String) ≠ "./helpers" :=
  ⟨by decide, by decide, by decide⟩

/-- The import list of the C8 counterexample: `import { x } from 'a'`
followed by `import { y as x } from 'b'`, with an empty file body. -/
def fileC8 : SourceFileO :=
  { imports := [{ specifier := "a", namedImports := [{ name := "x" }] },
                { specifier := "b", namedImports := [{ name := "y", alias? := some "x" }] }]
    bodyIdents := [] }

/-- C8, counterexample: the first optimization run keeps
`import { x } from 'a'` (its `x` is seen inside the later declaration's
`y as x`) and deletes that later declaration; the second run then finds
`x` unused and deletes the survivor too — the second run reports a
modification and changes the content, so `optimizeImports` is not
idempotent. -/
theorem optimizeImports_not_idempotent_counterexample :
    (optimizeImports fileC8).optimized = true ∧
    (optimizeImports { fileC8 with imports := (optimizeImports fileC8).imports }).optimized =
      true ∧
    (optimizeImports { fileC8 with imports := (optimizeImports fileC8).imports }).imports ≠
      (optimizeImports fileC8).imports :=
  ⟨by decide, by decide, by decide⟩

/-! ## C9: no false cycles from the built dependency graph -/

/-- The common prefix of a list with an extension of itself is the whole
list. -/
theorem commonPrefixLen_self_append : ∀ (l r : List String), commonPrefixLen l (l ++ r) = l.length := by
  intro l r
  induction l with
  | nil => rfl
  | cons a as ih => simp [commonPrefixLen, ih]

/-- `path.relative(root, root ++ rest) = rest` at the segment level. -/
theorem relativeSegs_self_append (l r : List String) : relativeSegs l (l ++ r) = r := by
  simp [relativeSegs, commonPrefixLen_self_append, List.drop_left]

/-- A joined segment list starts with `.` exactly when its first segment
does. -/
theorem startsWith_dot_joinSlash_cons (seg : String) (rest : List String) :
    strStartsWith (joinSlash (seg :: rest)) "." = strStartsWith seg "." := by
  cases rest with
  | nil => rfl
  | cons y ys =>
    show strStartsWith (strCat seg (strCat "/" (joinSlash (y :: ys)))) "." = _
    unfold strStartsWith strCat
    cases h : seg.data with
    | nil => simp [h]
    | cons x xs => simp [h, List.cons_prefix_cons]

/-- A relative (`.`-leading) id, which no graph node carries, has no
entry in the node map. -/
theorem nodeMap_dotted_none (nodes : List DependencyNode)
    (hids : ∀ n ∈ nodes, strStartsWith n.id "." = false) :
    ∀ id, strStartsWith id "." = true →
      nodes.reverse.find? (fun n => n.id = id) = none := by
  intro id hdot
  rw [List.find?_eq_none]
  intro n hn
  have := hids n (List.mem_reverse.mp hn)
  simp only [decide_eq_true_eq]
  intro hid
  rw [hid, hdot] at this
  cases this

/-- Following an edge to a relative id is inert: the id has no node, so
the DFS marks it visited and returns with the stack and the reported
cycles untouched — provided nothing on the stack is itself relative. -/
theorem dfsDetect_dotted (nm : String → Option DependencyNode)
    (hnm : ∀ id, strStartsWith id "." = true → nm id = none) :
    ∀ (fuel : Nat) (imp : String) (path : List String) (st : DfsState),
      strStartsWith imp "." = true →
      (∀ x ∈ st.recursionStack, strStartsWith x "." = false) →
      (dfsDetect nm (fuel + 1) imp path st).circularDeps = st.circularDeps ∧
      (dfsDetect nm (fuel + 1) imp path st).recursionStack = st.recursionStack := by
  intro fuel imp path st himp hstack
  have h1 : imp ∉ st.recursionStack := by
    intro hm
    have := hstack imp hm
    rw [himp] at this
    cases this
  simp only [dfsDetect]
  rw [if_neg (by simp [h1])]
  by_cases h2 : imp ∈ st.visited
  · rw [if_pos (by simp [h2])]
    exact ⟨rfl, rfl⟩
  · rw [if_neg (by simp [h2])]
    simp only [hnm imp himp]
    refine ⟨by trivial, ?_⟩
    show (st.recursionStack ++ [imp]).erase imp = st.recursionStack
    rw [List.erase_append_right _ (by simpa using h1)]
    simp

/-- A top-level DFS launch from a non-relative node id reports no cycle
and leaves the recursion stack empty: its children are all relative ids
(the edge filter) and therefore inert. -/
theorem dfsDetect_toplevel (nm : String → Option DependencyNode)
    (hnm : ∀ id, strStartsWith id "." = true → nm id = none)
    (nid : String) (hid : strStartsWith nid "." = false) :
    ∀ (fuel : Nat) (st : DfsState), st.recursionStack = [] →
      (dfsDetect nm (fuel + 2) nid [] st).circularDeps = st.circularDeps ∧
      (dfsDetect nm (fuel + 2) nid [] st).recursionStack = [] := by
  intro fuel st hst
  rw [show (fuel + 2) = (fuel + 1) + 1 from rfl, dfsDetect]
  rw [if_neg (by simp [hst])]
  by_cases h2 : nid ∈ st.visited
  · rw [if_pos (by simp [h2])]
    exact ⟨rfl, hst⟩
  · rw [if_neg (by simp [h2])]
    cases hm : nm nid with
    | none =>
      simp only [hm]
      refine ⟨by trivial, ?_⟩
      show (st.recursionStack ++ [nid]).erase nid = []
      rw [hst]
      simp
    | some node =>
      simp only [hm]
      have hfold :=
        foldl_preserve_mem
          (fun s : DfsState =>
            s.recursionStack = st.recursionStack ++ [nid] ∧ s.circularDeps = st.circularDeps)
          node.imports
          (fun s importPath =>
            if strStartsWith importPath "." = true then
              dfsDetect nm (fuel + 1) importPath ([] ++ [nid]) s
            else s)
          (by
            intro b a _ hb
            by_cases hdot : strStartsWith a "." = true
            · simp only [hdot, if_true]
              have hbstack : ∀ x ∈ b.recursionStack, strStartsWith x "." = false := by
                intro x hx
                rw [hb.1, hst] at hx
                simp only [List.nil_append, List.mem_singleton] at hx
                rw [hx]
                exact hid
              obtain ⟨hc, hr⟩ := dfsDetect_dotted nm hnm fuel a ([] ++ [nid]) b hdot hbstack
              exact ⟨hr.trans hb.1, hc.trans hb.2⟩
            · simp only [hdot, if_false]
              exact hb)
          ⟨st.visited ++ [nid], st.recursionStack ++ [nid], st.circularDeps⟩ ⟨rfl, rfl⟩
      refine ⟨hfold.2, ?_⟩
      rw [hfold.1, hst]
      simp only [List.nil_append, List.erase_cons_head]

/-- C9: on any project whose source files all lie below the root (with
glob's dotfile exclusion — no file's first root-relative segment starts
with `.`), the cycle detector applied to the built dependency graph
returns no cycles at all: node ids are root-relative and never
`.`-leading, recorded relative imports resolve to ids that match no node,
so no DFS ever re-enters its stack. -/
theorem visualize_detect_no_false_cycles
    (files : List SrcFile) (rootPath : Path) (maxDepth : Nat)
    (h : ∀ f ∈ files, ∃ seg rest, f.filePath = rootPath ++ seg :: rest ∧
        strStartsWith seg "." = false) :
    detectCircularDependencies (buildDependencyGraph files rootPath maxDepth) = [] := by
  have hids : ∀ n ∈ buildDependencyGraph files rootPath maxDepth,
      strStartsWith n.id "." = false := by
    intro n hn
    simp only [buildDependencyGraph, List.mem_map] at hn
    obtain ⟨f, hf, rfl⟩ := hn
    obtain ⟨seg, rest, hfp, hseg⟩ := h f (List.mem_of_mem_filter hf)
    show strStartsWith (relativeStr rootPath f.filePath) "." = false
    rw [hfp]
    unfold relativeStr
    rw [relativeSegs_self_append, startsWith_dot_joinSlash_cons]
    exact hseg
  have hnm := nodeMap_dotted_none (buildDependencyGraph files rootPath maxDepth) hids
  simp only [detectCircularDependencies]
  exact (foldl_preserve_mem
    (fun st : DfsState => st.recursionStack = [] ∧ st.circularDeps = [])
    (buildDependencyGraph files rootPath maxDepth) _
    (by
      intro st node hmem hst
      by_cases hv : node.id ∈ st.visited
      · rw [if_pos (by simp [hv])]
        exact hst
      · rw [if_neg (by simp [hv])]
        simp only [detectFuel]
        obtain ⟨h1, h2⟩ :=
          dfsDetect_toplevel _ hnm node.id (hids node hmem)
            ((buildDependencyGraph files rootPath maxDepth).length +
              ((buildDependencyGraph files rootPath maxDepth).map
                  (fun n => n.imports.length)).sum) st hst.1
        exact ⟨h2, h1.trans hst.2⟩)
    ⟨[], [], []⟩ ⟨rfl, rfl⟩).2

/-- The two mutually importing files of the C9 witness — a real cycle on
disk that the detector nevertheless misses. -/
def filesC9 : List SrcFile :=
  [⟨["r", "src", "a.ts"], ["./b"]⟩, ⟨["r", "src", "b.ts"], ["./a"]⟩]

/-- C9, witness: a two-file project with a genuine import cycle under
`/r` still yields no reported cycle. -/
theorem visualize_detect_no_false_cycles_witness :
    detectCircularDependencies (buildDependencyGraph filesC9 ["r"] 10) = [] :=
  visualize_detect_no_false_cycles filesC9 ["r"] 10 (by
    intro f hf
    simp only [filesC9, List.mem_cons, List.not_mem_nil, or_false] at hf
    rcases hf with rfl | rfl
    · exact ⟨"src", ["a.ts"], rfl, by decide⟩
    · exact ⟨"src", ["b.ts"], rfl, by decide⟩)

/-! ## C6: candidate selection order -/

/-- The selection comparator is reflexive. -/
theorem candLe_refl (req : List String) (it : ImportKind) (a : FileMatch) :
    candLe req it a a = true := by
  simp [candLe]

/-- Comparator shape when the export flags differ. -/
theorem candLe_shape_ne (req : List String) (it : ImportKind) (a b : FileMatch)
    (h : exportsMatch req it a ≠ exportsMatch req it b) :
    candLe req it a b = exportsMatch req it a := by
  simp [candLe, h]

/-- Comparator shape when the export flags agree and the distances
differ. -/
theorem candLe_shape_dist (req : List String) (it : ImportKind) (a b : FileMatch)
    (h1 : exportsMatch req it a = exportsMatch req it b) (h2 : a.distance ≠ b.distance) :
    candLe req it a b = decide (a.distance < b.distance) := by
  simp [candLe, h1, h2]

/-- Comparator shape when export flags and distances agree. -/
theorem candLe_shape_sim (req : List String) (it : ImportKind) (a b : FileMatch)
    (h1 : exportsMatch req it a = exportsMatch req it b) (h2 : a.distance = b.distance) :
    candLe req it a b = decide (b.similarity ≤ a.similarity) := by
  simp [candLe, h1, h2]

/-- The selection comparator is total. -/
theorem candLe_total (req : List String) (it : ImportKind) (a b : FileMatch) :
    (candLe req it a b || candLe req it b a) = true := by
  by_cases h1 : exportsMatch req it a = exportsMatch req it b
  · by_cases h2 : a.distance = b.distance
    · rw [candLe_shape_sim req it a b h1 h2, candLe_shape_sim req it b a h1.symm h2.symm]
      rcases le_total b.similarity a.similarity with h | h <;> simp [h]
    · rw [candLe_shape_dist req it a b h1 h2,
        candLe_shape_dist req it b a h1.symm (fun hh => h2 hh.symm)]
      simp only [Bool.or_eq_true, decide_eq_true_eq]
      omega
  · rw [candLe_shape_ne req it a b h1, candLe_shape_ne req it b a (fun hh => h1 hh.symm)]
    cases ha : exportsMatch req it a <;> cases hb : exportsMatch req it b <;> simp_all

/-- The selection comparator is transitive. -/
theorem candLe_trans (req : List String) (it : ImportKind) (a b c : FileMatch) :
    candLe req it a b = true → candLe req it b c = true → candLe req it a c = true := by
  intro hab hbc
  by_cases h1 : exportsMatch req it a = exportsMatch req it b
  · by_cases h2 : exportsMatch req it b = exportsMatch req it c
    · have h3 : exportsMatch req it a = exportsMatch req it c := h1.trans h2
      by_cases d1 : a.distance = b.distance
      · by_cases d2 : b.distance = c.distance
        · rw [candLe_shape_sim req it a b h1 d1] at hab
          rw [candLe_shape_sim req it b c h2 d2] at hbc
          rw [candLe_shape_sim req it a c h3 (d1.trans d2)]
          simp only [decide_eq_true_eq] at hab hbc ⊢
          exact le_trans hbc hab
        · rw [candLe_shape_dist req it b c h2 d2] at hbc
          simp only [decide_eq_true_eq] at hbc
          rw [candLe_shape_dist req it a c h3 (by omega)]
          simp only [decide_eq_true_eq]
          omega
      · rw [candLe_shape_dist req it a b h1 d1] at hab
        simp only [decide_eq_true_eq] at hab
        by_cases d2 : b.distance = c.distance
        · rw [candLe_shape_dist req it a c h3 (by omega)]
          simp only [decide_eq_true_eq]
          omega
        · rw [candLe_shape_dist req it b c h2 d2] at hbc
          simp only [decide_eq_true_eq] at hbc
          rw [candLe_shape_dist req it a c h3 (by omega)]
          simp only [decide_eq_true_eq]
          omega
    · rw [candLe_shape_ne req it b c h2] at hbc
      by_cases h3 : exportsMatch req it a = exportsMatch req it c
      · exact absurd (h1.symm.trans h3) h2
      · rw [candLe_shape_ne req it a c h3]
        rw [h1]
        exact hbc
  · rw [candLe_shape_ne req it a b h1] at hab
    have hbF : exportsMatch req it b = false := by
      cases hb : exportsMatch req it b
      · rfl
      · exact absurd (hab.trans hb.symm) h1
    by_cases h2 : exportsMatch req it b = exportsMatch req it c
    · have h3 : exportsMatch req it a ≠ exportsMatch req it c := by
        rw [hab, ← h2, hbF]
        simp
      rw [candLe_shape_ne req it a c h3]
      exact hab
    · rw [candLe_shape_ne req it b c h2] at hbc
      rw [hbF] at hbc
      cases hbc

/-- The head of a merge-sorted list is below every element of the
original list, for a reflexive, transitive and total comparator. -/
theorem mergeSort_head_le {α : Type _} (le : α → α → Bool)
    (htrans : ∀ a b c : α, le a b → le b c → le a c)
    (htotal : ∀ a b : α, le a b || le b a)
    (hrefl : ∀ a : α, le a a = true)
    (l : List α) (x : α) (hx : (l.mergeSort le).head? = some x) :
    ∀ y ∈ l, le x y = true := by
  intro y hy
  cases hms : l.mergeSort le with
  | nil =>
    rw [hms] at hx
    cases hx
  | cons a rest =>
    rw [hms] at hx
    injection hx with hx
    subst hx
    have hy' : y ∈ a :: rest := by
      rw [← hms]
      exact List.mem_mergeSort.mpr hy
    rcases List.mem_cons.mp hy' with rfl | hy''
    · exact hrefl y
    · have hp := List.sorted_mergeSort htrans htotal l
      rw [hms] at hp
      exact (List.pairwise_cons.mp hp).1 y hy''

/-- The character count of a string against itself is its length. -/
theorem countCommon_self : ∀ l : List Char, countCommon l l = l.length := by
  intro l
  induction l with
  | nil => rfl
  | cons c cs ih =>
    simp [countCommon, List.erase_cons_head, ih]

/-- C6: for a non-empty candidate set, `selectBestCandidate` returns a
candidate of the export-filtered pool (the unfiltered set when the filter
empties it) that is maximal under the comparator's exact precedence —
export match first, then distance ascending, then similarity descending —
and the similarity score of two non-empty names is the count of matching
characters (case-insensitive, each character of the second string
consumed at most once) divided by the longer length. -/
theorem selectBestCandidate_spec :
    (∀ (candidates : List FileMatch) (requiredExports : List String) (importType : ImportKind),
      candidates ≠ [] →
      ∃ best, selectBestCandidate candidates requiredExports importType = some best ∧
        best ∈ (if (filterCandidates candidates requiredExports importType).length = 0 then
            candidates else filterCandidates candidates requiredExports importType) ∧
        ∀ c ∈ (if (filterCandidates candidates requiredExports importType).length = 0 then
            candidates else filterCandidates candidates requiredExports importType),
          candLe requiredExports importType best c = true) ∧
    (∀ str1 str2 : String, strLen str1 ≠ 0 → strLen str2 ≠ 0 →
      calculateSimilarity str1 str2 =
        ((countCommon (strToLower str1).data (strToLower str2).data : ℚ)) /
          ((max (strLen str1) (strLen str2) : ℕ) : ℚ)) := by
  constructor
  · intro candidates requiredExports importType hne
    have hlen : ¬ candidates.length = 0 := by
      simpa [List.length_eq_zero] using hne
    set pool := if (filterCandidates candidates requiredExports importType).length = 0 then
        candidates else filterCandidates candidates requiredExports importType with hpool
    have hpoolne : pool ≠ [] := by
      rw [hpool]
      split
      · exact hne
      · intro hnil
        simp [hnil] at *
    cases hms : pool.mergeSort (candLe requiredExports importType) with
    | nil =>
      exfalso
      have : (pool.mergeSort (candLe requiredExports importType)).length = pool.length :=
        List.length_mergeSort pool
      rw [hms] at this
      exact hpoolne (List.length_eq_zero.mp this.symm)
    | cons a rest =>
      refine ⟨a, ?_, ?_, ?_⟩
      · simp only [selectBestCandidate, if_neg hlen]
        rw [← hpool, hms]
        rfl
      · have : a ∈ pool.mergeSort (candLe requiredExports importType) := by
          rw [hms]
          simp
        exact List.mem_mergeSort.mp this
      · intro c hc
        exact mergeSort_head_le (candLe requiredExports importType)
          (candLe_trans requiredExports importType)
          (candLe_total requiredExports importType)
          (candLe_refl requiredExports importType)
          pool a (by rw [hms]; rfl) c hc
  · intro str1 str2 h1 h2
    by_cases heq : str1 = str2
    · subst heq
      rw [calculateSimilarity]
      rw [if_neg (by simp [h1]), if_neg (by simp [h1, h2]), if_pos rfl]
      rw [countCommon_self]
      have hlen : (strToLower str1).data.length = strLen str1 := by
        simp [strToLower, strLen]
      rw [hlen]
      rw [max_self]
      have : ((strLen str1 : ℕ) : ℚ) ≠ 0 := by
        exact_mod_cast h1
      field_simp
    · rw [calculateSimilarity]
      rw [if_neg (by simp [h1]), if_neg (by simp [h1, h2]), if_neg heq]

/-- Two concrete candidates for the C6 witness: only the second carries
the required export, so it wins despite its larger distance. -/
def candA : FileMatch :=
  { path := ["p", "src", "math.ts"], exports := ["sub"], hasDefault := false,
    distance := 1, similarity := 1 }

/-- The competing candidate that satisfies the named-export requirement. -/
def candB : FileMatch :=
  { path := ["p", "lib", "deep", "math.ts"], exports := ["add", "multiply"],
    hasDefault := false, distance := 3, similarity := 1 }

/-- C6, witness: the export-matching candidate is selected and is maximal
in the comparator order; the similarity formula at concrete names. -/
theorem selectBestCandidate_spec_witness :
    (∃ best, selectBestCandidate [candA, candB] ["add", "multiply"] ImportKind.named =
        some best ∧
      best ∈ (if (filterCandidates [candA, candB] ["add", "multiply"]
          ImportKind.named).length = 0 then [candA, candB]
        else filterCandidates [candA, candB] ["add", "multiply"] ImportKind.named) ∧
      ∀ c ∈ (if (filterCandidates [candA, candB] ["add", "multiply"]
          ImportKind.named).length = 0 then [candA, candB]
        else filterCandidates [candA, candB] ["add", "multiply"] ImportKind.named),
        candLe ["add", "multiply"] ImportKind.named best c = true) ∧
    calculateSimilarity "math" "maths" =
      ((countCommon (strToLower "math").data (strToLower "maths").data : ℚ)) /
        ((max (strLen "math") (strLen "maths") : ℕ) : ℚ) :=
  ⟨selectBestCandidate_spec.1 [candA, candB] ["add", "multiply"] ImportKind.named
      (by decide),
   selectBestCandidate_spec.2 "math" "maths" (by decide) (by decide)⟩

/-! ## String and path lemma library (for the rewrite/resolve round trips) -/

/-- A segment that survives the split/join round trip. -/
def segOk (s : String) : Prop := s ≠ "" ∧ '/' ∉ s.data

/-- A segment that `path.resolve` copies verbatim. -/
def plainSeg (s : String) : Prop := s ≠ "" ∧ s ≠ "." ∧ s ≠ ".." ∧ '/' ∉ s.data

instance (s : String) : Decidable (segOk s) := by unfold segOk; infer_instance

instance (s : String) : Decidable (plainSeg s) := by unfold plainSeg; infer_instance

theorem strCat_data (a b : String) : (strCat a b).data = a.data ++ b.data := rfl

theorem strCat_assoc (a b c : String) : strCat (strCat a b) c = strCat a (strCat b c) :=
  congrArg String.mk (List.append_assoc a.data b.data c.data)

theorem strLen_strCat (a b : String) : strLen (strCat a b) = strLen a + strLen b := by
  simp [strLen, strCat]

/-- Dropping a concatenated suffix recovers the left part. -/
theorem dropRightStr_strCat (s t : String) :
    dropRightStr (strCat s t) (strLen t) = s := by
  unfold dropRightStr
  rw [strCat_data]
  have : (s.data ++ t.data).length - strLen t = s.data.length := by
    simp [strLen]
  rw [this]
  exact congrArg String.mk (List.take_left s.data t.data)

/-- A concatenated suffix is always an `endsWith` hit. -/
theorem strEndsWith_strCat (s t : String) : strEndsWith (strCat s t) t = true := by
  unfold strEndsWith
  rw [strCat_data]
  simp [List.suffix_append]

/-- Suffixes of a common list compare by length. -/
theorem suffix_of_suffix_length_le {l₁ l₂ l₃ : List Char} (h1 : l₁ <:+ l₃) (h2 : l₂ <:+ l₃)
    (h : l₁.length ≤ l₂.length) : l₁ <:+ l₂ := by
  rw [← List.reverse_prefix] at h1 h2 ⊢
  exact List.prefix_of_prefix_length_le h1 h2 (by simpa using h)

/-- `endsWith` refuter: a string ending in `e` cannot also end in `pat`
when neither of `e`, `pat` is a suffix of the other. -/
theorem not_endsWith_of (s e pat : String) (h1 : ¬ pat.data <:+ e.data)
    (h2 : ¬ e.data <:+ pat.data) : strEndsWith (strCat s e) pat = false := by
  unfold strEndsWith
  rw [strCat_data]
  simp only [decide_eq_false_iff_not]
  intro hp
  have he : e.data <:+ s.data ++ e.data := List.suffix_append s.data e.data
  rcases le_total pat.data.length e.data.length with hl | hl
  · exact h1 (suffix_of_suffix_length_le hp he hl)
  · exact h2 (suffix_of_suffix_length_le he hp hl)

/-- Cancelling a shared appended suffix inside a suffix relation. -/
theorem suffix_append_cancel {Y post X : List Char} :
    (Y ++ post) <:+ (X ++ post) ↔ Y <:+ X := by
  constructor
  · rintro ⟨t, ht⟩
    rw [← List.append_assoc] at ht
    exact ⟨t, List.append_cancel_right ht⟩
  · rintro ⟨t, ht⟩
    exact ⟨t, by rw [← List.append_assoc, ht]⟩

/-- Stripping a just-appended language extension recovers the original
string (the four alternatives are mutually exclusive as suffixes). -/
theorem stripLangExt_strCat (s : String) (ext : String) (hext : ext ∈ langExts) :
    stripLangExt (strCat s ext) = s := by
  unfold stripLangExt
  have hx : ext = ".ts" ∨ ext = ".tsx" ∨ ext = ".js" ∨ ext = ".jsx" := by
    simpa [langExts] using hext
  rcases hx with rfl | rfl | rfl | rfl
  · rw [not_endsWith_of s ".ts" ".tsx" (by decide) (by decide)]
    rw [strEndsWith_strCat]
    simp only [Bool.false_eq_true, if_false, if_true]
    exact dropRightStr_strCat s ".ts"
  · rw [strEndsWith_strCat]
    simp only [if_true]
    exact dropRightStr_strCat s ".tsx"
  · rw [not_endsWith_of s ".js" ".tsx" (by decide) (by decide)]
    rw [not_endsWith_of s ".js" ".ts" (by decide) (by decide)]
    rw [not_endsWith_of s ".js" ".jsx" (by decide) (by decide)]
    rw [strEndsWith_strCat]
    simp only [Bool.false_eq_true, if_false, if_true]
    exact dropRightStr_strCat s ".js"
  · rw [not_endsWith_of s ".jsx" ".tsx" (by decide) (by decide)]
    rw [not_endsWith_of s ".jsx" ".ts" (by decide) (by decide)]
    rw [strEndsWith_strCat]
    simp only [Bool.false_eq_true, if_false, if_true]
    exact dropRightStr_strCat s ".jsx"

/-- Stripping a just-appended `stripTsTsx` extension. -/
theorem stripTsTsx_strCat (s : String) (ext : String) (hext : ext ∈ [".ts", ".tsx"]) :
    stripTsTsx (strCat s ext) = s := by
  unfold stripTsTsx
  have hx : ext = ".ts" ∨ ext = ".tsx" := by simpa using hext
  rcases hx with rfl | rfl
  · rw [not_endsWith_of s ".ts" ".tsx" (by decide) (by decide)]
    rw [strEndsWith_strCat]
    simp only [Bool.false_eq_true, if_false, if_true]
    exact dropRightStr_strCat s ".ts"
  · rw [strEndsWith_strCat]
    simp only [if_true]
    exact dropRightStr_strCat s ".tsx"

/-- Stripping a just-appended repair extension, with the one genuine
overlap (`X.d` + `.ts` = `X` + `.d.ts`) excluded by hypothesis. -/
theorem stripLangExt5_strCat (s : String) (ext : String) (hext : ext ∈ repairExts)
    (hd : ext = ".ts" → strEndsWith s ".d" = false) :
    stripLangExt5 (strCat s ext) = s := by
  unfold stripLangExt5
  have hx : ext = ".ts" ∨ ext = ".tsx" ∨ ext = ".js" ∨ ext = ".jsx" ∨ ext = ".d.ts" := by
    simpa [repairExts] using hext
  rcases hx with rfl | rfl | rfl | rfl | rfl
  · have hds : strEndsWith (strCat s ".ts") ".d.ts" = false := by
      unfold strEndsWith
      rw [strCat_data]
      simp only [decide_eq_false_iff_not]
      intro hp
      have : (".d".data ++ ".ts".data) <:+ (s.data ++ ".ts".data) := hp
      have hd2 : ".d".data <:+ s.data := suffix_append_cancel.mp this
      have := hd rfl
      unfold strEndsWith at this
      rw [decide_eq_false_iff_not] at this
      exact this hd2
    rw [hds]
    simp only [Bool.false_eq_true, if_false]
    exact stripLangExt_strCat s ".ts" (by simp [langExts])
  · rw [not_endsWith_of s ".tsx" ".d.ts" (by decide) (by decide)]
    simp only [Bool.false_eq_true, if_false]
    exact stripLangExt_strCat s ".tsx" (by simp [langExts])
  · rw [not_endsWith_of s ".js" ".d.ts" (by decide) (by decide)]
    simp only [Bool.false_eq_true, if_false]
    exact stripLangExt_strCat s ".js" (by simp [langExts])
  · rw [not_endsWith_of s ".jsx" ".d.ts" (by decide) (by decide)]
    simp only [Bool.false_eq_true, if_false]
    exact stripLangExt_strCat s ".jsx" (by simp [langExts])
  · rw [strEndsWith_strCat]
    simp only [if_true]
    exact dropRightStr_strCat s ".d.ts"

/-- Splitting a slash-free character list yields one group. -/
theorem splitSlashChars_no_slash : ∀ (l : List Char), '/' ∉ l → splitSlashChars l = [l] := by
  intro l
  induction l with
  | nil => intro _; rfl
  | cons c cs ih =>
    intro h
    have hc : c ≠ '/' := fun hh => h (by simp [hh])
    have hcs : '/' ∉ cs := fun hh => h (by simp [hh])
    simp [splitSlashChars, hc, ih hcs]

/-- Splitting at the first separator. -/
theorem splitSlashChars_append : ∀ (a c : List Char), '/' ∉ a →
    splitSlashChars (a ++ '/' :: c) = a :: splitSlashChars c := by
  intro a
  induction a with
  | nil => intro c _; simp [splitSlashChars]
  | cons x xs ih =>
    intro c h
    have hx : x ≠ '/' := fun hh => h (by simp [hh])
    have hxs : '/' ∉ xs := fun hh => h (by simp [hh])
    show splitSlashChars (x :: (xs ++ '/' :: c)) = (x :: xs) :: splitSlashChars c
    simp only [splitSlashChars, hx, if_false]
    show (match splitSlashChars (xs ++ '/' :: c) with
      | [] => [[x]]
      | g :: gs => (x :: g) :: gs) = (x :: xs) :: splitSlashChars c
    rw [ih c hxs]

/-- `split('/')` inverts joining, for non-empty slash-free segments. -/
theorem splitSlash_joinSlash : ∀ (l : List String), l ≠ [] → (∀ s ∈ l, segOk s) →
    splitSlash (joinSlash l) = l := by
  intro l
  induction l with
  | nil => intro h _; exact absurd rfl h
  | cons s rest ih =>
    intro _ hok
    cases rest with
    | nil =>
      show splitSlash s = [s]
      unfold splitSlash
      rw [splitSlashChars_no_slash s.data (hok s (by simp)).2]
      rfl
    | cons t r =>
      show splitSlash (strCat s (strCat "/" (joinSlash (t :: r)))) = s :: t :: r
      unfold splitSlash
      rw [strCat_data]
      have : ("/" : String).data ++ (joinSlash (t :: r)).data =
          '/' :: (joinSlash (t :: r)).data := rfl
      rw [strCat_data, this]
      rw [splitSlashChars_append s.data _ (hok s (by simp)).2]
      have ihr := ih (by simp) (fun x hx => hok x (by simp [hx]))
      unfold splitSlash at ihr
      simp only [List.map_cons]
      rw [show String.mk s.data = s from rfl]
      rw [ihr]

/-- Splitting a `./`-prefixed string. -/
theorem splitSlash_dotSlash (s : String) :
    splitSlash (strCat "./" s) = "." :: splitSlash s := by
  unfold splitSlash
  rw [strCat_data]
  show ((splitSlashChars ('.' :: '/' :: s.data)).map fun l => String.mk l) = _
  have : splitSlashChars ('.' :: '/' :: s.data) = ['.'] :: splitSlashChars s.data := by
    have h1 : splitSlashChars ('/' :: s.data) = [] :: splitSlashChars s.data := by
      simp [splitSlashChars]
    simp [splitSlashChars, h1]
  rw [this]
  rfl

theorem resolveSegs_append (d : Path) (l₁ l₂ : List String) :
    resolveSegs d (l₁ ++ l₂) = resolveSegs (resolveSegs d l₁) l₂ :=
  List.foldl_append applySeg d l₁ l₂

/-- Resolving `k` parent segments truncates the directory. -/
theorem resolveSegs_replicate_parent : ∀ (k : Nat) (d : Path),
    resolveSegs d (List.replicate k "..") = d.take (d.length - k) := by
  intro k
  induction k with
  | zero => intro d; simp [resolveSegs]
  | succ k ih =>
    intro d
    rw [List.replicate_succ]
    show resolveSegs (applySeg d "..") (List.replicate k "..") = _
    rw [show applySeg d ".." = d.dropLast from rfl]
    rw [ih, List.dropLast_eq_take, List.take_take, List.length_take]
    congr 1
    omega

/-- Plain segments are appended verbatim. -/
theorem resolveSegs_plain : ∀ (rest : List String) (d : Path),
    (∀ s ∈ rest, plainSeg s) → resolveSegs d rest = d ++ rest := by
  intro rest
  induction rest with
  | nil => intro d _; simp [resolveSegs]
  | cons s r ih =>
    intro d h
    obtain ⟨h1, h2, h3, _⟩ := h s (by simp)
    show resolveSegs (applySeg d s) r = _
    rw [show applySeg d s = d ++ [s] by simp [applySeg, h1, h2, h3]]
    rw [ih (d ++ [s]) (fun x hx => h x (by simp [hx]))]
    simp

theorem commonPrefixLen_le_left : ∀ (a b : List String), commonPrefixLen a b ≤ a.length := by
  intro a
  induction a with
  | nil => intro b; cases b <;> simp [commonPrefixLen]
  | cons x xs ih =>
    intro b
    cases b with
    | nil => simp [commonPrefixLen]
    | cons y ys =>
      by_cases h : x = y
      · simpa [commonPrefixLen, h] using ih ys
      · simp [commonPrefixLen, h]

theorem commonPrefixLen_le_right : ∀ (a b : List String), commonPrefixLen a b ≤ b.length := by
  intro a
  induction a with
  | nil => intro b; cases b <;> simp [commonPrefixLen]
  | cons x xs ih =>
    intro b
    cases b with
    | nil => simp [commonPrefixLen]
    | cons y ys =>
      by_cases h : x = y
      · simpa [commonPrefixLen, h] using ih ys
      · simp [commonPrefixLen, h]

/-- The two lists agree on their common prefix. -/
theorem take_commonPrefixLen : ∀ (a b : List String),
    a.take (commonPrefixLen a b) = b.take (commonPrefixLen a b) := by
  intro a
  induction a with
  | nil => intro b; cases b <;> simp [commonPrefixLen]
  | cons x xs ih =>
    intro b
    cases b with
    | nil => simp [commonPrefixLen]
    | cons y ys =>
      by_cases h : x = y
      · simp [commonPrefixLen, h, ih ys]
      · simp [commonPrefixLen, h]

/-- The core of every round trip: resolving the relative segment list
from the origin directory lands exactly on the target, provided the
target's segments past the common prefix are plain. -/
theorem resolveSegs_relativeSegs (f t : Path)
    (h : ∀ s ∈ t.drop (commonPrefixLen f t), plainSeg s) :
    resolveSegs f (relativeSegs f t) = t := by
  unfold relativeSegs
  rw [resolveSegs_append, resolveSegs_replicate_parent]
  have hc : commonPrefixLen f t ≤ f.length := commonPrefixLen_le_left f t
  have : f.length - (f.length - commonPrefixLen f t) = commonPrefixLen f t := by omega
  rw [this]
  rw [resolveSegs_plain _ _ h]
  rw [take_commonPrefixLen]
  exact List.take_append_drop (commonPrefixLen f t) t

/-- A suffix of an appended list that fits inside the right part is a
suffix of the right part. -/
theorem suffix_append_ge {pat pre post : List Char} (h : pat <:+ pre ++ post)
    (hl : pat.length ≤ post.length) : pat <:+ post := by
  obtain ⟨t, ht⟩ := h
  have hlen : t.length + pat.length = pre.length + post.length := by
    have := congrArg List.length ht
    simpa using this
  have hpre : pre.length ≤ t.length := by omega
  have heq := congrArg (List.drop t.length) ht
  rw [List.drop_left] at heq
  rw [List.drop_append_eq_append_drop] at heq
  rw [List.drop_eq_nil_of_le hpre] at heq
  rw [List.nil_append] at heq
  rw [heq]
  exact List.drop_suffix _ _

/-- Peeling the non-matching case: a too-long suffix of `X ++ b` with `X`
nonempty equals a suffix of `X` glued to `b`. -/
theorem suffix_split_long {pat X b : List Char} (h : pat <:+ X ++ b)
    (hl : b.length < pat.length) :
    ∃ n, n < X.length ∧ pat = X.drop n ++ b := by
  obtain ⟨t, ht⟩ := h
  have hlen : t.length + pat.length = X.length + b.length := by
    have := congrArg List.length ht
    simpa using this
  refine ⟨t.length, by omega, ?_⟩
  have heq := congrArg (List.drop t.length) ht
  rw [List.drop_left] at heq
  rw [List.drop_append_eq_append_drop] at heq
  rw [show t.length - X.length = 0 by omega] at heq
  rw [List.drop_zero] at heq
  exact heq

/-- `joinSlash` of a `cons` with a non-empty tail. -/
theorem joinSlash_cons_ne_nil (x : String) (l : List String) (h : l ≠ []) :
    joinSlash (x :: l) = strCat x (strCat "/" (joinSlash l)) := by
  obtain ⟨t, r, rfl⟩ := List.exists_cons_of_ne_nil h
  rfl

/-- Decomposing a join around its last segment: everything before the
last segment is empty or ends with the separator. -/
theorem join_last_decomp : ∀ (l : List String) (b : String),
    ∃ X, (joinSlash (l ++ [b])).data = X ++ b.data ∧
      (X = [] ∨ ∃ Y, X = Y ++ ['/']) := by
  intro l
  induction l with
  | nil => intro b; exact ⟨[], rfl, Or.inl rfl⟩
  | cons x xs ih =>
    intro b
    obtain ⟨X, hX, hok⟩ := ih b
    refine ⟨x.data ++ '/' :: X, ?_, ?_⟩
    · rw [List.cons_append, joinSlash_cons_ne_nil x _ (by simp)]
      rw [strCat_data, strCat_data, hX]
      show x.data ++ (['/'] ++ (X ++ b.data)) = (x.data ++ '/' :: X) ++ b.data
      simp
    · rcases hok with rfl | ⟨Y, rfl⟩
      · exact Or.inr ⟨x.data, by simp⟩
      · exact Or.inr ⟨x.data ++ '/' :: Y, by simp⟩

/-- A slash-free pattern is a suffix of a join exactly when it is a
suffix of the last segment. -/
theorem endsWith_join_last (l : List String) (b pat : String) (hpat : '/' ∉ pat.data) :
    strEndsWith (joinSlash (l ++ [b])) pat = strEndsWith b pat := by
  obtain ⟨X, hX, hok⟩ := join_last_decomp l b
  unfold strEndsWith
  rw [hX]
  rw [decide_eq_decide]
  constructor
  · intro hp
    rcases le_or_lt pat.data.length b.data.length with hl | hl
    · exact suffix_append_ge hp hl
    · exfalso
      obtain ⟨n, hn, hpeq⟩ := suffix_split_long hp hl
      rcases hok with rfl | ⟨Y, rfl⟩
      · simp at hn
      · apply hpat
        rw [hpeq]
        have hY : n ≤ Y.length := by
          rw [List.length_append] at hn
          simpa using Nat.lt_succ_iff.mp (by simpa using hn)
        rw [List.drop_append_eq_append_drop]
        rw [show n - Y.length = 0 by omega]
        simp
  · intro hp
    obtain ⟨t, ht⟩ := hp
    exact ⟨X ++ t, by rw [List.append_assoc, ht]⟩

/-- No string of the decomposed shape `X ++ b` (with `X` empty or
slash-terminated and `b` a slash-free segment other than `index`) ends
with `/index`. -/
theorem endsWith_slash_index_decomp (T b : String) (X : List Char)
    (hT : T.data = X ++ b.data) (hok : X = [] ∨ ∃ Y, X = Y ++ ['/'])
    (hb : '/' ∉ b.data) (hbne : b ≠ "index") :
    strEndsWith T "/index" = false := by
  unfold strEndsWith
  rw [hT]
  simp only [decide_eq_false_iff_not]
  intro hp
  rcases le_or_lt ("/index" : String).data.length b.data.length with hl | hl
  · have hsuf := suffix_append_ge hp hl
    exact hb (hsuf.subset (by decide))
  · obtain ⟨n, hn, hpeq⟩ := suffix_split_long hp hl
    rcases hok with rfl | ⟨Y, rfl⟩
    · simp at hn
    · have hY : n ≤ Y.length := by
        rw [List.length_append] at hn
        simpa using Nat.lt_succ_iff.mp (by simpa using hn)
      rw [List.drop_append_eq_append_drop] at hpeq
      rw [show n - Y.length = 0 by omega] at hpeq
      rw [List.drop_zero] at hpeq
      rw [List.append_assoc] at hpeq
      cases hW : Y.drop n with
      | nil =>
        rw [hW, List.nil_append] at hpeq
        simp only [List.singleton_append] at hpeq
        have hbdata : b.data = ['i', 'n', 'd', 'e', 'x'] :=
          ((List.cons.injEq _ _ _ _ ▸ hpeq).2).symm
        apply hbne
        rw [show b = String.mk b.data from rfl, hbdata]
      | cons c W' =>
        rw [hW] at hpeq
        simp only [List.cons_append, List.singleton_append] at hpeq
        have h4 : ['i', 'n', 'd', 'e', 'x'] = W' ++ '/' :: b.data :=
          (List.cons.injEq _ _ _ _ ▸ hpeq).2
        have h5 : ('/' : Char) ∈ ['i', 'n', 'd', 'e', 'x'] := by
          rw [h4]
          simp
        exact absurd h5 (by decide)

/-- Appending an extension to the last segment commutes with joining. -/
theorem joinSlash_append_ext (l : List String) (b e : String) :
    joinSlash (l ++ [strCat b e]) = strCat (joinSlash (l ++ [b])) e := by
  induction l with
  | nil => rfl
  | cons x xs ih =>
    rw [List.cons_append, List.cons_append]
    rw [joinSlash_cons_ne_nil x _ (by simp), joinSlash_cons_ne_nil x _ (by simp)]
    rw [ih, strCat_assoc, strCat_assoc]

/-- Prepending to a nonempty string does not change whether it starts
with `.`. -/
theorem strStartsWith_dot_strCat (s t : String) (hs : s.data ≠ []) :
    strStartsWith (strCat s t) "." = strStartsWith s "." := by
  unfold strStartsWith
  rw [strCat_data]
  cases h : s.data with
  | nil => exact absurd h hs
  | cons x xs => simp [h, List.cons_prefix_cons]

/-- The `./`-normalised specifier always starts with `.`. -/
theorem dotPrefix_startsWith (s : String) : strStartsWith (dotPrefix s) "." = true := by
  unfold dotPrefix
  split
  · unfold strStartsWith
    rw [strCat_data]
    simp [List.cons_prefix_cons]
  · next h => simpa using h

/-- A `.`-leading string is not `/`-leading. -/
theorem startsWith_dot_not_slash (s : String) (h : strStartsWith s "." = true) :
    strStartsWith s "/" = false := by
  unfold strStartsWith at h ⊢
  simp only [decide_eq_true_eq] at h
  simp only [decide_eq_false_iff_not]
  intro hs
  obtain ⟨t, ht⟩ := h
  obtain ⟨u, hu⟩ := hs
  rw [← hu] at ht
  simp only [List.singleton_append] at ht
  cases ht

/-- `dotPrefix` commutes with appending an extension to a non-empty
string. -/
theorem dotPrefix_strCat_ext (J e : String) (hJ : J.data ≠ []) :
    dotPrefix (strCat J e) = strCat (dotPrefix J) e := by
  unfold dotPrefix
  rw [strStartsWith_dot_strCat J e hJ]
  split
  · rw [strCat_assoc]
  · rfl

/-- Resolving a `./`-normalised join of well-formed segments against a
directory is exactly the segment-level resolution. -/
theorem resolveSpec_dotPrefix_join (dir : Path) (segs : List String)
    (h : ∀ s ∈ segs, segOk s) :
    resolveSpec dir (dotPrefix (joinSlash segs)) = resolveSegs dir segs := by
  have habs : strStartsWith (dotPrefix (joinSlash segs)) "/" = false :=
    startsWith_dot_not_slash _ (dotPrefix_startsWith _)
  unfold resolveSpec
  rw [if_neg (by simp [habs])]
  rcases segs with _ | ⟨s, rest⟩
  · have h0 : dotPrefix (joinSlash []) = strCat "./" "" := by rfl
    rw [h0, splitSlash_dotSlash]
    show resolveSegs dir ("." :: splitSlash "") = resolveSegs dir []
    rw [show splitSlash "" = [""] from rfl]
    simp [resolveSegs, applySeg]
  · by_cases hd : strStartsWith (joinSlash (s :: rest)) "." = true
    · have heq : dotPrefix (joinSlash (s :: rest)) = joinSlash (s :: rest) := by
        unfold dotPrefix
        rw [if_neg (by simp [hd])]
      rw [heq, splitSlash_joinSlash _ (by simp) h]
    · have heq : dotPrefix (joinSlash (s :: rest)) = strCat "./" (joinSlash (s :: rest)) := by
        unfold dotPrefix
        rw [if_pos (by simpa using hd)]
      rw [heq, splitSlash_dotSlash, splitSlash_joinSlash _ (by simp) h]
      show resolveSegs (applySeg dir ".") (s :: rest) = resolveSegs dir (s :: rest)
      rw [show applySeg dir "." = dir by simp [applySeg]]

/-! ## C3: the rewrite/resolve round trip -/

theorem replacePrefixPath_self (p new : Path) : replacePrefixPath p p new = new := by
  unfold replacePrefixPath
  rw [if_pos (by simp)]
  simp

theorem data_ne_nil_of_ne_empty (b : String) (h : b ≠ "") : b.data ≠ [] := by
  intro hd
  exact h (by rw [show b = String.mk b.data from rfl, hd])

/-- The join of a list ending in a non-empty segment is non-empty. -/
theorem joinSlash_last_ne_nil (l : List String) (b : String) (hb : b ≠ "") :
    (joinSlash (l ++ [b])).data ≠ [] := by
  obtain ⟨X, hX, _⟩ := join_last_decomp l b
  rw [hX]
  intro hnil
  rcases List.append_eq_nil.mp hnil with ⟨_, h2⟩
  exact data_ne_nil_of_ne_empty b hb h2

/-- The `./`-normalised join of a list ending in a plain non-`index`
segment never ends with `/index`. -/
theorem endsWith_slash_index_dotPrefix_join (L : List String) (b : String)
    (hb : '/' ∉ b.data) (hbne : b ≠ "index") :
    strEndsWith (dotPrefix (joinSlash (L ++ [b]))) "/index" = false := by
  obtain ⟨X, hX, hok⟩ := join_last_decomp L b
  unfold dotPrefix
  split
  · apply endsWith_slash_index_decomp _ b (['.', '/'] ++ X)
    · rw [strCat_data, hX]
      simp
    · rcases hok with rfl | ⟨Y, rfl⟩
      · exact Or.inr ⟨['.'], rfl⟩
      · exact Or.inr ⟨['.', '/'] ++ Y, by simp⟩
    · exact hb
    · exact hbne
  · exact endsWith_slash_index_decomp _ b X hX hok hb hbne

/-- The common prefix with a concat target that is not a prefix of the
origin stays within the target's directory part. -/
theorem commonPrefixLen_concat_le (dirA dirC : Path) (lastC : String)
    (hnpre : ¬ (dirC ++ [lastC]) <+: dirA) :
    commonPrefixLen dirA (dirC ++ [lastC]) ≤ dirC.length := by
  by_contra hgt
  push_neg at hgt
  have hcP' : commonPrefixLen dirA (dirC ++ [lastC]) ≤ (dirC ++ [lastC]).length :=
    commonPrefixLen_le_right dirA (dirC ++ [lastC])
  have hPlen : (dirC ++ [lastC]).length = dirC.length + 1 := by simp
  have hceq : commonPrefixLen dirA (dirC ++ [lastC]) = (dirC ++ [lastC]).length := by omega
  apply hnpre
  have h1 : dirA.take (commonPrefixLen dirA (dirC ++ [lastC])) =
      (dirC ++ [lastC]).take (commonPrefixLen dirA (dirC ++ [lastC])) :=
    take_commonPrefixLen dirA (dirC ++ [lastC])
  rw [hceq, List.take_length] at h1
  rw [← h1]
  exact List.take_prefix _ dirA

/-- `path.relative` to a concat target, with the last segment pulled
out of the segment list. -/
theorem relativeSegs_concat (dirA dirC : Path) (lastC : String)
    (hcC : commonPrefixLen dirA (dirC ++ [lastC]) ≤ dirC.length) :
    relativeSegs dirA (dirC ++ [lastC]) =
      (List.replicate (dirA.length - commonPrefixLen dirA (dirC ++ [lastC])) ".." ++
        dirC.drop (commonPrefixLen dirA (dirC ++ [lastC]))) ++ [lastC] := by
  unfold relativeSegs
  rw [List.drop_append_eq_append_drop,
    show commonPrefixLen dirA (dirC ++ [lastC]) - dirC.length = 0 by omega,
    List.drop_zero, List.append_assoc]

/-- Agreement of origin and target directory on the common prefix, for a
concat target whose common prefix stays within the directory part. -/
theorem take_commonPrefixLen_concat (dirA dirC : Path) (lastC : String)
    (hcC : commonPrefixLen dirA (dirC ++ [lastC]) ≤ dirC.length) :
    dirA.take (commonPrefixLen dirA (dirC ++ [lastC])) =
      dirC.take (commonPrefixLen dirA (dirC ++ [lastC])) := by
  have h2 := take_commonPrefixLen dirA (dirC ++ [lastC])
  rw [h2, List.take_append_of_le_length hcC]

/-- Resolving the up-then-down relative segment list ending in a plain
segment lands on the target directory plus that segment. -/
theorem resolveSegs_updrop (dirA dirC : Path) (b : String) (c : Nat)
    (hcA : c ≤ dirA.length)
    (htake : dirA.take c = dirC.take c)
    (hdirC : ∀ s ∈ dirC, plainSeg s) (hb : plainSeg b) :
    resolveSegs dirA
        (List.replicate (dirA.length - c) ".." ++ dirC.drop c ++ [b]) =
      dirC ++ [b] := by
  rw [List.append_assoc, resolveSegs_append, resolveSegs_replicate_parent,
    show dirA.length - (dirA.length - c) = c by omega]
  rw [resolveSegs_plain _ _ ?plain]
  case plain =>
    intro s hs
    simp only [List.mem_append, List.mem_singleton] at hs
    rcases hs with hs | rfl
    · exact hdirC s (List.mem_of_mem_drop hs)
    · exact hb
  rw [htake, ← List.append_assoc, List.take_append_drop]

/-- The `./`-normalisation preserves the `X ++ b` last-segment
decomposition of a join. -/
theorem dotPrefix_join_decomp (l : List String) (b : String) :
    ∃ X, (dotPrefix (joinSlash (l ++ [b]))).data = X ++ b.data ∧
      (X = [] ∨ ∃ Y, X = Y ++ ['/']) := by
  obtain ⟨X, hX, hok⟩ := join_last_decomp l b
  unfold dotPrefix
  split
  · refine ⟨['.', '/'] ++ X, ?_, ?_⟩
    · rw [strCat_data, hX]
      simp
    · rcases hok with rfl | ⟨Y, rfl⟩
      · exact Or.inr ⟨['.'], rfl⟩
      · exact Or.inr ⟨['.', '/'] ++ Y, by simp⟩
  · exact ⟨X, hX, hok⟩

/-- A slash-free pattern is a suffix of a decomposed `X ++ b` string
exactly when it is a suffix of `b`. -/
theorem endsWith_decomp (T b pat : String) (X : List Char)
    (hT : T.data = X ++ b.data) (hok : X = [] ∨ ∃ Y, X = Y ++ ['/'])
    (hpat : '/' ∉ pat.data) :
    strEndsWith T pat = strEndsWith b pat := by
  unfold strEndsWith
  rw [hT]
  rw [decide_eq_decide]
  constructor
  · intro hp
    rcases le_or_lt pat.data.length b.data.length with hl | hl
    · exact suffix_append_ge hp hl
    · exfalso
      obtain ⟨n, hn, hpeq⟩ := suffix_split_long hp hl
      rcases hok with rfl | ⟨Y, rfl⟩
      · simp at hn
      · apply hpat
        rw [hpeq]
        have hY : n ≤ Y.length := by
          rw [List.length_append] at hn
          simpa using Nat.lt_succ_iff.mp (by simpa using hn)
        rw [List.drop_append_eq_append_drop]
        rw [show n - Y.length = 0 by omega]
        simp
  · intro hp
    obtain ⟨t, ht⟩ := hp
    exact ⟨X ++ t, by rw [List.append_assoc, ht]⟩

/-- A slash-free pattern ends the `./`-normalised join exactly when it
ends the last segment. -/
theorem endsWith_dotPrefix_join (l : List String) (b pat : String) (hpat : '/' ∉ pat.data) :
    strEndsWith (dotPrefix (joinSlash (l ++ [b]))) pat = strEndsWith b pat := by
  obtain ⟨X, hX, hok⟩ := dotPrefix_join_decomp l b
  exact endsWith_decomp _ b pat X hX hok hpat

/-- The language-extension test on a `./`-normalised join reduces to its
last segment. -/
theorem hasLangExt_dotPrefix_join (l : List String) (b : String) :
    hasLangExt (dotPrefix (joinSlash (l ++ [b]))) = hasLangExt b := by
  simp only [hasLangExt, langExts, List.any_cons, List.any_nil]
  rw [endsWith_dotPrefix_join l b ".ts" (by decide),
    endsWith_dotPrefix_join l b ".tsx" (by decide),
    endsWith_dotPrefix_join l b ".js" (by decide),
    endsWith_dotPrefix_join l b ".jsx" (by decide)]

/-- A string carrying a just-appended language extension never ends with
`/index`. -/
theorem endsWith_strCat_lang_index (Z ext : String) (hext : ext ∈ langExts) :
    strEndsWith (strCat Z ext) "/index" = false := by
  have hx : ext = ".ts" ∨ ext = ".tsx" ∨ ext = ".js" ∨ ext = ".jsx" := by
    simpa [langExts] using hext
  rcases hx with rfl | rfl | rfl | rfl
  · exact not_endsWith_of Z ".ts" "/index" (by decide) (by decide)
  · exact not_endsWith_of Z ".tsx" "/index" (by decide) (by decide)
  · exact not_endsWith_of Z ".js" "/index" (by decide) (by decide)
  · exact not_endsWith_of Z ".jsx" "/index" (by decide) (by decide)

/-- `path.basename` of a concat path is its last segment. -/
theorem lastSeg_append : ∀ (l : List String) (b : String), lastSeg (l ++ [b]) = b := by
  intro l
  induction l with
  | nil => intro b; rfl
  | cons x xs ih =>
    intro b
    cases xs with
    | nil => rfl
    | cons y ys =>
      show lastSeg ((y :: ys) ++ [b]) = b
      exact ih b

/-- `mapLastSeg` rewrites exactly the final segment. -/
theorem mapLastSeg_append (f : String → String) :
    ∀ (l : List String) (b : String), mapLastSeg f (l ++ [b]) = l ++ [f b] := by
  intro l
  induction l with
  | nil => intro b; rfl
  | cons x xs ih =>
    intro b
    cases xs with
    | nil => rfl
    | cons y ys =>
      show x :: mapLastSeg f ((y :: ys) ++ [b]) = x :: ((y :: ys) ++ [f b])
      rw [ih b]

/-- Appending an extension suffixes exactly the final segment. -/
theorem addExt_append (e : String) :
    ∀ (l : List String) (b : String), addExt (l ++ [b]) e = l ++ [strCat b e] := by
  intro l
  induction l with
  | nil => intro b; rfl
  | cons x xs ih =>
    intro b
    cases xs with
    | nil => rfl
    | cons y ys =>
      show x :: addExt ((y :: ys) ++ [b]) e = x :: ((y :: ys) ++ [strCat b e])
      rw [ih b]

/-- The relative segment list is empty, or ends in `..`, or ends in a
segment of the target. -/
theorem relativeSegs_last_cases (f t : Path) :
    relativeSegs f t = [] ∨
      ∃ l b, relativeSegs f t = l ++ [b] ∧ (b = ".." ∨ b ∈ t) := by
  unfold relativeSegs
  rcases List.eq_nil_or_concat (t.drop (commonPrefixLen f t)) with hnil | ⟨l', b', hcons⟩
  · rw [hnil, List.append_nil]
    cases hk : f.length - commonPrefixLen f t with
    | zero => exact Or.inl rfl
    | succ k =>
      exact Or.inr ⟨List.replicate k "..", "..", by rw [List.replicate_succ'], Or.inl rfl⟩
  · rw [List.concat_eq_append] at hcons
    refine Or.inr ⟨List.replicate (f.length - commonPrefixLen f t) ".." ++ l', b', ?_, ?_⟩
    · rw [hcons, List.append_assoc]
    · refine Or.inr (List.mem_of_mem_drop (n := commonPrefixLen f t) (l := t) ?_)
      rw [hcons]
      simp

/-- The `./`-normalised relative path to a target made of extension-less
segments never carries a language extension. -/
theorem hasLangExt_dotPrefix_relative (fromDir t : Path)
    (h : ∀ s ∈ t, hasLangExt s = false) :
    hasLangExt (dotPrefix (relativeStr fromDir t)) = false := by
  unfold relativeStr
  rcases relativeSegs_last_cases fromDir t with hnil | ⟨l, b, heq, hb⟩
  · rw [hnil]
    decide
  · rw [heq, hasLangExt_dotPrefix_join]
    rcases hb with rfl | hb
    · decide
    · exact h b hb

/-- The `./`-normalised relative path to a target of slash-free
non-`index` segments never ends with `/index`. -/
theorem endsWith_index_dotPrefix_relative (fromDir t : Path)
    (h : ∀ s ∈ t, s ≠ "index" ∧ '/' ∉ s.data) :
    strEndsWith (dotPrefix (relativeStr fromDir t)) "/index" = false := by
  unfold relativeStr
  rcases relativeSegs_last_cases fromDir t with hnil | ⟨l, b, heq, hb⟩
  · rw [hnil]
    decide
  · rw [heq]
    rcases hb with rfl | hb
    · exact endsWith_slash_index_dotPrefix_join l ".." (by decide) (by decide)
    · exact endsWith_slash_index_dotPrefix_join l b (h b hb).2 (h b hb).1

/-- The generic shape of `calculateNewImportPath` for a relative
specifier whose target moved to `dirP/(base+ext)`: the rewrite produces
the `./`-normalised relative path to the extension-stripped target (with
the extension kept exactly when the original specifier carried one), and
the produced segments resolve back to the stripped target. -/
theorem calculateNewImportPath_shape
    (fs : FS) (dirA : Path) (aname : String) (oldB dirP : Path) (base ext spec : String)
    (hspec : strStartsWith spec "." = true)
    (hnoidx : strEndsWith spec "/index" = false)
    (hres : resolveRelativeRename fs (dirA ++ [aname]) spec = oldB)
    (hext : ext ∈ langExts)
    (hbase : plainSeg base)
    (hbne : base ≠ "index")
    (hdirP : ∀ s ∈ dirP, plainSeg s)
    (hnpre : ¬ (dirP ++ [strCat base ext]) <+: dirA) :
    ∃ L : List String,
      (∀ s ∈ L ++ [base], segOk s) ∧
      resolveSegs dirA (L ++ [base]) = dirP ++ [base] ∧
      (hasLangExt spec = false →
        calculateNewImportPath fs (dirA ++ [aname]) oldB (dirP ++ [strCat base ext]) spec =
          dotPrefix (joinSlash (L ++ [base]))) ∧
      (hasLangExt spec = true →
        calculateNewImportPath fs (dirA ++ [aname]) oldB (dirP ++ [strCat base ext]) spec =
          strCat (dotPrefix (joinSlash (L ++ [base]))) ext) := by
  set P : Path := dirP ++ [strCat base ext] with hP
  set c : Nat := commonPrefixLen dirA P with hc
  have hcA : c ≤ dirA.length := commonPrefixLen_le_left dirA P
  have hcP : c ≤ dirP.length := commonPrefixLen_concat_le dirA dirP (strCat base ext) hnpre
  set L : List String := List.replicate (dirA.length - c) ".." ++ dirP.drop c with hL
  have hrelP : relativeSegs dirA P = L ++ [strCat base ext] :=
    relativeSegs_concat dirA dirP (strCat base ext) hcP
  have hLok : ∀ s ∈ L ++ [base], segOk s := by
    intro s hs
    rw [hL] at hs
    simp only [List.append_assoc, List.mem_append, List.mem_replicate,
      List.mem_singleton] at hs
    rcases hs with ⟨_, rfl⟩ | hs | rfl
    · exact ⟨by decide, by decide⟩
    · have := hdirP s (List.mem_of_mem_drop hs)
      exact ⟨this.1, this.2.2.2⟩
    · exact ⟨hbase.1, hbase.2.2.2⟩
  have hJne : (joinSlash (L ++ [base])).data ≠ [] := joinSlash_last_ne_nil L base hbase.1
  have hresolved : resolveSegs dirA (L ++ [base]) = dirP ++ [base] := by
    rw [hL]
    exact resolveSegs_updrop dirA dirP base c hcA
      (take_commonPrefixLen_concat dirA dirP (strCat base ext) hcP) hdirP hbase
  refine ⟨L, hLok, hresolved, ?_, ?_⟩
  · intro hnoext
    unfold calculateNewImportPath
    rw [if_neg (by simp [hspec])]
    simp only [Option.getD_none]
    rw [hres, replacePrefixPath_self]
    rw [show dirname (dirA ++ [aname]) = dirA by simp [dirname]]
    unfold relativeStr
    rw [hrelP, joinSlash_append_ext]
    rw [dotPrefix_strCat_ext _ _ hJne]
    rw [hnoext]
    simp only [Bool.false_eq_true, if_false]
    rw [stripLangExt_strCat _ _ hext]
    rw [hnoidx]
    simp only [Bool.false_eq_true, if_false]
    rw [endsWith_slash_index_dotPrefix_join L base hbase.2.2.2 hbne]
    simp
  · intro hwith
    unfold calculateNewImportPath
    rw [if_neg (by simp [hspec])]
    simp only [Option.getD_none]
    rw [hres, replacePrefixPath_self]
    rw [show dirname (dirA ++ [aname]) = dirA by simp [dirname]]
    unfold relativeStr
    rw [hrelP, joinSlash_append_ext]
    rw [dotPrefix_strCat_ext _ _ hJne]
    rw [hwith]
    simp only [eq_self_iff_true, if_true]
    rw [hnoidx]
    rw [endsWith_strCat_lang_index (dotPrefix (joinSlash (L ++ [base]))) ext hext]
    simp

/-- C3, amended: the round trip holds when the rewritten specifier's
probes hit the moved file first.  Precisely: if `A = dirA/aname` imports
`B` via a relative, extension-less, non-`/index` specifier resolving to
`oldB`, and `B` is moved to `P = dirP/(base+ext)` (a language-extension
file name that is not an `index` file and whose path is not an ancestor
of `A`'s directory), then — provided the first existing probe of the
extension-stripped rewritten target in the post-move tree is `P` itself
(no shadowing sibling or directory) — resolving the rewritten specifier
from `A` yields exactly `P`. -/
theorem rename_roundtrip_amended
    (fs fs' : FS) (dirA : Path) (aname : String) (oldB dirP : Path) (base ext spec : String)
    (hspec : strStartsWith spec "." = true)
    (hnoext : hasLangExt spec = false)
    (hnoidx : strEndsWith spec "/index" = false)
    (hres : resolveRelativeRename fs (dirA ++ [aname]) spec = oldB)
    (hext : ext ∈ langExts)
    (hbase : plainSeg base)
    (hbne : base ≠ "index")
    (hdirP : ∀ s ∈ dirP, plainSeg s)
    (hnpre : ¬ (dirP ++ [strCat base ext]) <+: dirA)
    (hfirst : firstExisting fs' (renameProbeList (dirP ++ [base])) =
      some (dirP ++ [strCat base ext])) :
    resolveImportPathRename fs' (dirA ++ [aname])
        (calculateNewImportPath fs (dirA ++ [aname]) oldB (dirP ++ [strCat base ext]) spec) =
      ResolveOut.path (dirP ++ [strCat base ext]) := by
  obtain ⟨L, hLok, hresolved, hshape, _⟩ :=
    calculateNewImportPath_shape fs dirA aname oldB dirP base ext spec
      hspec hnoidx hres hext hbase hbne hdirP hnpre
  rw [hshape hnoext]
  unfold resolveImportPathRename
  rw [if_neg (by simp [dotPrefix_startsWith])]
  unfold resolveRelativeRename
  rw [show dirname (dirA ++ [aname]) = dirA by simp [dirname]]
  rw [resolveSpec_dotPrefix_join dirA (L ++ [base]) hLok]
  simp only [hresolved, hfirst, Option.getD_some]

/-- The pre-move tree of the C3 witness. -/
def fsC3preW : FS :=
  { entries := [["p"], ["p", "a.ts"], ["p", "b.ts"], ["p", "sub"]] }

/-- The post-move tree of the C3 witness (`/p/b.ts` moved to
`/p/sub/c.ts`, nothing shadowing). -/
def fsC3postW : FS :=
  { entries := [["p"], ["p", "a.ts"], ["p", "sub"], ["p", "sub", "c.ts"]] }

/-- C3, witness: the round trip at a concrete un-shadowed move. -/
theorem rename_roundtrip_amended_witness :
    resolveImportPathRename fsC3postW ["p", "a.ts"]
        (calculateNewImportPath fsC3preW ["p", "a.ts"] ["p", "b.ts"] ["p", "sub", "c.ts"]
          "./b") =
      ResolveOut.path ["p", "sub", "c.ts"] :=
  rename_roundtrip_amended fsC3preW fsC3postW ["p"] "a.ts" ["p", "b.ts"] ["p", "sub"]
    "c" ".ts" "./b" (by decide) (by decide) (by decide) (by decide) (by decide)
    (by decide) (by decide) (by decide) (by decide) (by decide)

/-! ## C4: extension style of rewritten specifiers -/

/-- C4, amended: only the file-rename rewriter preserves the original
specifier's extension style.  For a rename/move of `dirP/(base+ext)`
under the round-trip hypotheses: an extension-less relative specifier is
rewritten to an extension-less specifier, and a specifier carrying a
language extension is rewritten to one ending in the moved file's
extension `ext`.  The file-move rewriter instead ignores the original
specifier and always strips `.ts`/`.tsx` (concretely exhibited by the
counterexample): for a non-`index` `.ts`/`.tsx` target of plain
extension-less segments its output never carries a language
extension. -/
theorem extension_preservation_amended :
    (∀ (fs : FS) (dirA : Path) (aname : String) (oldB dirP : Path) (base ext spec : String),
      strStartsWith spec "." = true →
      strEndsWith spec "/index" = false →
      resolveRelativeRename fs (dirA ++ [aname]) spec = oldB →
      ext ∈ langExts → plainSeg base → base ≠ "index" →
      hasLangExt base = false →
      (∀ s ∈ dirP, plainSeg s) →
      ¬ (dirP ++ [strCat base ext]) <+: dirA →
      (hasLangExt spec = false →
        hasLangExt
          (calculateNewImportPath fs (dirA ++ [aname]) oldB (dirP ++ [strCat base ext]) spec)
          = false) ∧
      (hasLangExt spec = true →
        strEndsWith
          (calculateNewImportPath fs (dirA ++ [aname]) oldB (dirP ++ [strCat base ext]) spec)
          ext = true)) ∧
    (∀ (fs : FS) (fromDir dirT : Path) (base ext : String),
      ext ∈ [".ts", ".tsx"] → plainSeg base → base ≠ "index" →
      hasLangExt base = false →
      (∀ s ∈ dirT, plainSeg s ∧ hasLangExt s = false) →
      hasLangExt (createOptimalImportPath fs fromDir (dirT ++ [strCat base ext])) = false) := by
  constructor
  · intro fs dirA aname oldB dirP base ext spec hspec hnoidx hres hext hbase hbne hbext
      hdirP hnpre
    obtain ⟨L, hLok, hresolved, hshape0, hshape1⟩ :=
      calculateNewImportPath_shape fs dirA aname oldB dirP base ext spec
        hspec hnoidx hres hext hbase hbne hdirP hnpre
    constructor
    · intro hnoext
      rw [hshape0 hnoext, hasLangExt_dotPrefix_join L base]
      exact hbext
    · intro hwith
      rw [hshape1 hwith]
      exact strEndsWith_strCat _ ext
  · intro fs fromDir dirT base ext hext hbase hbne hbext hdirT
    simp only [createOptimalImportPath]
    rw [mapLastSeg_append stripTsTsx dirT (strCat base ext),
      stripTsTsx_strCat base ext hext, lastSeg_append]
    rw [if_neg hbne, ite_self]
    apply hasLangExt_dotPrefix_relative fromDir (dirT ++ [base])
    intro s hs
    rcases List.mem_append.mp hs with hs | hs
    · exact (hdirT s hs).2
    · rw [List.mem_singleton.mp hs]
      exact hbext

/-- C4, witness: the rename rewriter keeps both styles at the concrete
move of `/p/b.ts` to `/p/sub/c.ts`, and the move rewriter strips the
extension of a concrete `.ts` target. -/
theorem extension_preservation_amended_witness :
    hasLangExt (calculateNewImportPath fsC3preW ["p", "a.ts"] ["p", "b.ts"]
        ["p", "sub", "c.ts"] "./b") = false ∧
    strEndsWith (calculateNewImportPath fsC3preW ["p", "a.ts"] ["p", "b.ts"]
        ["p", "sub", "c.ts"] "./b.ts") ".ts" = true ∧
    hasLangExt (createOptimalImportPath fsC4 ["r"] ["r", "lib", "oldStyle.ts"]) = false :=
  ⟨(extension_preservation_amended.1 fsC3preW ["p"] "a.ts" ["p", "b.ts"] ["p", "sub"]
      "c" ".ts" "./b" (by decide) (by decide) (by decide) (by decide) (by decide)
      (by decide) (by decide) (by decide) (by decide)).1 (by decide),
   (extension_preservation_amended.1 fsC3preW ["p"] "a.ts" ["p", "b.ts"] ["p", "sub"]
      "c" ".ts" "./b.ts" (by decide) (by decide) (by decide) (by decide) (by decide)
      (by decide) (by decide) (by decide) (by decide)).2 (by decide),
   extension_preservation_amended.2 fsC4 ["r"] ["r", "lib"] "oldStyle" ".ts"
      (by decide) (by decide) (by decide) (by decide) (by decide)⟩

/-! ## C5: directory style for moved index files -/

/-- C5, amended: only the file-move rewriter collapses an `index.*`
target to directory style.  `createOptimalImportPath` on an
`index.ts`/`index.tsx` target whose directory consists of plain,
extension-less, non-`index` segments yields exactly the `./`-normalised
relative path of the containing directory — with no `/index` suffix and
no language extension.  The file-rename rewriter instead preserves the
original style (concrete contrast at the counterexample's tree): a
consumer importing `./utils/index` is rewritten to `./helpers/index`,
and one importing `./utils` to `./helpers`. -/
theorem index_collapse_amended :
    (∀ (fs : FS) (fromDir dirT : Path) (ext : String),
      ext ∈ [".ts", ".tsx"] →
      (∀ s ∈ dirT, plainSeg s ∧ hasLangExt s = false ∧ s ≠ "index") →
      createOptimalImportPath fs fromDir (dirT ++ [strCat "index" ext]) =
          dotPrefix (relativeStr fromDir dirT) ∧
      strEndsWith (createOptimalImportPath fs fromDir (dirT ++ [strCat "index" ext]))
          "/index" = false ∧
      hasLangExt (createOptimalImportPath fs fromDir (dirT ++ [strCat "index" ext])) =
          false) ∧
    calculateNewImportPath fsC5 ["r", "a.ts"] ["r", "utils"] ["r", "helpers"]
        "./utils/index" = "./helpers/index" ∧
    calculateNewImportPath fsC5 ["r", "a.ts"] ["r", "utils"] ["r", "helpers"]
        "./utils" = "./helpers" := by
  refine ⟨?_, by decide, by decide⟩
  intro fs fromDir dirT ext hext hdirT
  have hmain : createOptimalImportPath fs fromDir (dirT ++ [strCat "index" ext]) =
      dotPrefix (relativeStr fromDir dirT) := by
    simp only [createOptimalImportPath]
    rw [mapLastSeg_append stripTsTsx dirT (strCat "index" ext),
      stripTsTsx_strCat "index" ext hext, lastSeg_append]
    rw [if_pos rfl]
    rw [show dirname (dirT ++ ["index"]) = dirT by simp [dirname]]
  refine ⟨hmain, ?_, ?_⟩
  · rw [hmain]
    exact endsWith_index_dotPrefix_relative fromDir dirT fun s hs =>
      ⟨(hdirT s hs).2.2, (hdirT s hs).1.2.2.2⟩
  · rw [hmain]
    exact hasLangExt_dotPrefix_relative fromDir dirT fun s hs => (hdirT s hs).2.1

/-- C5, witness: the move rewriter collapses the concrete target
`/r/utils/index.ts` referenced from `/r` to the bare `./utils`. -/
theorem index_collapse_amended_witness :
    createOptimalImportPath fsC5 ["r"] ["r", "utils", "index.ts"] = "./utils" ∧
    strEndsWith (createOptimalImportPath fsC5 ["r"] ["r", "utils", "index.ts"])
        "/index" = false ∧
    hasLangExt (createOptimalImportPath fsC5 ["r"] ["r", "utils", "index.ts"]) = false := by
  have h := index_collapse_amended.1 fsC5 ["r"] ["r", "utils"] ".ts" (by decide) (by decide)
  exact ⟨h.1.trans (by decide), h.2.1, h.2.2⟩

/-! ## C8: idempotence of `repairImportPaths` -/

/-- `firstExisting` on a list containing an existing path returns an
existing path. -/
theorem firstExisting_mem_exists (fs : FS) :
    ∀ (l : List Path) (p : Path), p ∈ l → fs.existsSync p = true →
      ∃ q, firstExisting fs l = some q ∧ fs.existsSync q = true := by
  intro l
  induction l with
  | nil =>
    intro p hp _
    cases hp
  | cons x xs ih =>
    intro p hp hex
    cases hfx : fs.existsSync x with
    | true => exact ⟨x, by simp [firstExisting, hfx], hfx⟩
    | false =>
      rcases List.mem_cons.mp hp with rfl | hp2
      · rw [hfx] at hex
        cases hex
      · obtain ⟨q, hq, hqex⟩ := ih p hp2 hex
        exact ⟨q, by simp [firstExisting, hfx, hq], hqex⟩

/-- A string really ending in `t` is its `t`-free prefix plus `t`. -/
theorem strCat_dropRightStr_of_endsWith (s t : String) (h : strEndsWith s t = true) :
    strCat (dropRightStr s (strLen t)) t = s := by
  unfold strEndsWith at h
  rw [decide_eq_true_eq] at h
  obtain ⟨pre, hpre⟩ := h
  unfold dropRightStr strLen strCat
  have hlen : s.data.length - t.data.length = pre.length := by
    rw [← hpre]
    simp
  rw [hlen, ← hpre, List.take_left]
  rw [hpre]

/-- Any string ending in a repair extension is its `stripLangExt5` core
plus one of the extensions, and an extension choosable to avoid the
`.d` + `.ts` overlap. -/
theorem stripLangExt5_restore (s : String)
    (h : ∃ e ∈ repairExts, strEndsWith s e = true) :
    ∃ e ∈ repairExts, strCat (stripLangExt5 s) e = s ∧
      (e = ".ts" → strEndsWith (stripLangExt5 s) ".d" = false) := by
  cases h5 : strEndsWith s ".d.ts" with
  | true =>
    refine ⟨".d.ts", by simp [repairExts], ?_, fun heq => absurd heq (by decide)⟩
    have hr := strCat_dropRightStr_of_endsWith s ".d.ts" h5
    unfold stripLangExt5
    rw [if_pos h5]
    exact hr
  | false =>
    have hstrip : stripLangExt5 s = stripLangExt s := by
      unfold stripLangExt5
      rw [h5]
      simp
    rw [hstrip]
    cases h4 : strEndsWith s ".tsx" with
    | true =>
      refine ⟨".tsx", by simp [repairExts], ?_, fun heq => absurd heq (by decide)⟩
      have hr := strCat_dropRightStr_of_endsWith s ".tsx" h4
      unfold stripLangExt
      rw [if_pos h4]
      exact hr
    | false =>
      cases h3 : strEndsWith s ".ts" with
      | true =>
        refine ⟨".ts", by simp [repairExts], ?_, fun _ => ?_⟩
        · have hr := strCat_dropRightStr_of_endsWith s ".ts" h3
          unfold stripLangExt
          rw [if_neg (by simp [h4]), if_pos h3]
          exact hr
        · unfold stripLangExt
          rw [if_neg (by simp [h4]), if_pos h3]
          cases hd : strEndsWith (dropRightStr s 3) ".d" with
          | false => rfl
          | true =>
            exfalso
            have h1 : strCat (dropRightStr s 3) ".ts" = s :=
              strCat_dropRightStr_of_endsWith s ".ts" h3
            have h2 := strCat_dropRightStr_of_endsWith (dropRightStr s 3) ".d" hd
            have hs : strEndsWith s ".d.ts" = true := by
              rw [← h1, ← h2, strCat_assoc]
              exact strEndsWith_strCat _ ".d.ts"
            rw [h5] at hs
            cases hs
      | false =>
        cases h2 : strEndsWith s ".jsx" with
        | true =>
          refine ⟨".jsx", by simp [repairExts], ?_, fun heq => absurd heq (by decide)⟩
          have hr := strCat_dropRightStr_of_endsWith s ".jsx" h2
          unfold stripLangExt
          rw [if_neg (by simp [h4]), if_neg (by simp [h3]), if_pos h2]
          exact hr
        | false =>
          cases h1 : strEndsWith s ".js" with
          | true =>
            refine ⟨".js", by simp [repairExts], ?_, fun heq => absurd heq (by decide)⟩
            have hr := strCat_dropRightStr_of_endsWith s ".js" h1
            unfold stripLangExt
            rw [if_neg (by simp [h4]), if_neg (by simp [h3]), if_neg (by simp [h2]),
              if_pos h1]
            exact hr
          | false =>
            exfalso
            obtain ⟨e, he, hse⟩ := h
            have hx : e = ".ts" ∨ e = ".tsx" ∨ e = ".js" ∨ e = ".jsx" ∨ e = ".d.ts" := by
              simpa [repairExts] using he
            rcases hx with rfl | rfl | rfl | rfl | rfl
            · rw [h3] at hse
              cases hse
            · rw [h4] at hse
              cases hse
            · rw [h1] at hse
              cases hse
            · rw [h2] at hse
              cases hse
            · rw [h5] at hse
              cases hse

/-- `filterCandidates` only keeps members of its input. -/
theorem filterCandidates_subset (candidates : List FileMatch) (req : List String)
    (it : ImportKind) (c : FileMatch) (h : c ∈ filterCandidates candidates req it) :
    c ∈ candidates := by
  cases it with
  | defaultKind =>
    simp only [filterCandidates] at h
    exact (List.mem_filter.mp h).1
  | named =>
    simp only [filterCandidates] at h
    split at h
    · exact (List.mem_filter.mp h).1
    · exact h
  | namespaceKind => exact h
  | sideEffect => exact h

/-- The selected best candidate is one of the candidates. -/
theorem selectBestCandidate_mem (candidates : List FileMatch) (req : List String)
    (it : ImportKind) (best : FileMatch)
    (h : selectBestCandidate candidates req it = some best) : best ∈ candidates := by
  simp only [selectBestCandidate] at h
  split at h
  · cases h
  · have hmem := List.mem_of_mem_head? h
    rw [List.mem_mergeSort] at hmem
    split at hmem
    · exact hmem
    · exact filterCandidates_subset candidates req it best hmem

/-- Every scored candidate's path comes from the collaborator's match
list for the extracted name. -/
theorem scored_candidate_path (env : RepairEnv) (fn : String) (fp : Path) (best : FileMatch)
    (h : best ∈ scoreCandidates (findFilesByName env fn) fp) :
    ∃ r ∈ env.findFiles fn, best.path = r.path := by
  unfold scoreCandidates at h
  rw [List.mem_map] at h
  obtain ⟨c0, hc0, hbest⟩ := h
  unfold findFilesByName at hc0
  rw [List.mem_map] at hc0
  obtain ⟨r, hr, hc0eq⟩ := hc0
  refine ⟨r, hr, ?_⟩
  subst hbest
  subst hc0eq
  rfl

/-- A `generateRelativePath` output re-resolves: the repair resolver on
the rewritten specifier finds an existing probe. -/
theorem generateRelativePath_resolves (fs : FS) (dirF : Path) (fname : String) (cand : Path)
    (hplain : ∀ s ∈ cand, plainSeg s)
    (hex : fs.existsSync cand = true)
    (hld : ∃ e ∈ repairExts, strEndsWith (lastSeg cand) e = true)
    (hsb : plainSeg (stripLangExt5 (lastSeg cand)))
    (hnpre : ¬ cand <+: dirF)
    (hcne : cand ≠ []) :
    ∃ q, resolveImportPathRepair fs (dirF ++ [fname])
        (generateRelativePath (dirF ++ [fname]) cand) = some q ∧
      fs.existsSync q = true := by
  rcases List.eq_nil_or_concat cand with rfl | ⟨dirC, lastC, hcand⟩
  · exact absurd rfl hcne
  rw [List.concat_eq_append] at hcand
  subst hcand
  rw [lastSeg_append] at hld hsb
  obtain ⟨e, he, hrest, hdts⟩ := stripLangExt5_restore lastC hld
  set sb : String := stripLangExt5 lastC with hsbdef
  set c : Nat := commonPrefixLen dirF (dirC ++ [lastC]) with hc
  have hcC : c ≤ dirC.length := commonPrefixLen_concat_le dirF dirC lastC hnpre
  have hcA : c ≤ dirF.length := commonPrefixLen_le_left dirF (dirC ++ [lastC])
  set L : List String := List.replicate (dirF.length - c) ".." ++ dirC.drop c with hL
  have hrel : relativeSegs dirF (dirC ++ [lastC]) = L ++ [lastC] :=
    relativeSegs_concat dirF dirC lastC hcC
  have hspec : generateRelativePath (dirF ++ [fname]) (dirC ++ [lastC]) =
      dotPrefix (joinSlash (L ++ [sb])) := by
    unfold generateRelativePath relativeStr
    rw [show dirname (dirF ++ [fname]) = dirF by simp [dirname]]
    rw [hrel]
    rw [show lastC = strCat sb e from hrest.symm]
    rw [joinSlash_append_ext]
    rw [stripLangExt5_strCat _ _ he ?hd]
    case hd =>
      intro hets
      rw [endsWith_join_last L sb ".d" (by decide)]
      exact hdts hets
  have hLok : ∀ s ∈ L ++ [sb], segOk s := by
    intro s hs
    rw [hL] at hs
    simp only [List.append_assoc, List.mem_append, List.mem_replicate,
      List.mem_singleton] at hs
    rcases hs with ⟨_, rfl⟩ | hs | rfl
    · exact ⟨by decide, by decide⟩
    · have := hplain s (List.mem_append_left _ (List.mem_of_mem_drop hs))
      exact ⟨this.1, this.2.2.2⟩
    · exact ⟨hsb.1, hsb.2.2.2⟩
  rw [hspec]
  simp only [resolveImportPathRepair]
  rw [show dirname (dirF ++ [fname]) = dirF by simp [dirname]]
  rw [resolveSpec_dotPrefix_join dirF (L ++ [sb]) hLok]
  have htake : dirF.take c = dirC.take c := take_commonPrefixLen_concat dirF dirC lastC hcC
  have hresolved : resolveSegs dirF (L ++ [sb]) = dirC ++ [sb] := by
    rw [hL]
    exact resolveSegs_updrop dirF dirC sb c hcA htake
      (fun s hs => hplain s (List.mem_append_left _ hs)) hsb
  rw [hresolved]
  apply firstExisting_mem_exists fs (repairProbeList (dirC ++ [sb])) (dirC ++ [lastC]) ?mem hex
  case mem =>
    unfold repairProbeList
    apply List.mem_append_left
    rw [List.mem_map]
    exact ⟨e, he, by rw [addExt_append, hrest]⟩

/-- The repaired path of a `repaired` result is the generated relative
path of a selected, collaborator-provided candidate. -/
theorem repaired_path_shape (env : RepairEnv) (fp : Path) (spec : String)
    (it : ImportKind) (ni : List String)
    (h : (repairSingleImport env fp spec it ni).status = RepairStatus.repaired) :
    ∃ fn, ∃ r ∈ env.findFiles fn,
      (repairSingleImport env fp spec it ni).repairedPath =
        some (generateRelativePath fp r.path) := by
  by_cases h1 : strStartsWith spec "." = false ∧ strStartsWith spec "/" = false
  · simp [repairSingleImport, h1] at h
  · by_cases h2 :
      (Option.map env.fs.existsSync (resolveImportPathRepair env.fs fp spec)).getD false = true
    · simp [repairSingleImport, h1, h2] at h
    · cases h3 : getFileNameFromPath spec with
      | none => simp [repairSingleImport, h1, h2, h3] at h
      | some fn =>
        by_cases h4 : (findFilesByName env fn).length = 0
        · simp [repairSingleImport, h1, h2, h3, h4] at h
        · cases h5 : selectBestCandidate (scoreCandidates (findFilesByName env fn) fp)
              ni it with
          | none => simp [repairSingleImport, h1, h2, h3, h4, h5] at h
          | some best =>
            have hmem : best ∈ scoreCandidates (findFilesByName env fn) fp :=
              selectBestCandidate_mem _ _ _ _ h5
            obtain ⟨r, hr, hpath⟩ := scored_candidate_path env fn fp best hmem
            refine ⟨fn, r, hr, ?_⟩
            simp [repairSingleImport, h1, h2, h3, h4, h5, hpath]

/-- Well-formedness of the collaborator's matches, as assumed by the
idempotence theorem: every match exists on disk, is a non-empty path of
plain segments whose file name carries a repair extension and strips to
a plain core, and is not a prefix of the repaired file's directory. -/
def GoodEnv (env : RepairEnv) (dirF : Path) : Prop :=
  ∀ n : String, ∀ r ∈ env.findFiles n,
    env.fs.existsSync r.path = true ∧
    (∀ s ∈ r.path, plainSeg s) ∧
    (∃ e ∈ repairExts, strEndsWith (lastSeg r.path) e = true) ∧
    plainSeg (stripLangExt5 (lastSeg r.path)) ∧
    ¬ r.path <+: dirF ∧ r.path ≠ []

/-- A rewritten specifier is immediately `already_valid` again: the
second `repairSingleImport` on a generated relative path to a
well-formed existing candidate short-circuits at the resolver. -/
theorem repairSingleImport_second (env : RepairEnv) (dirF : Path) (fname : String)
    (cand : Path)
    (hc : env.fs.existsSync cand = true) (hplain : ∀ s ∈ cand, plainSeg s)
    (hld : ∃ e ∈ repairExts, strEndsWith (lastSeg cand) e = true)
    (hsb : plainSeg (stripLangExt5 (lastSeg cand)))
    (hnpre : ¬ cand <+: dirF) (hcne : cand ≠ [])
    (it : ImportKind) (ni : List String) :
    repairSingleImport env (dirF ++ [fname]) (generateRelativePath (dirF ++ [fname]) cand)
        it ni =
      { originalPath := generateRelativePath (dirF ++ [fname]) cand, repairedPath := none,
        importType := it, status := .alreadyValid, reason := "Path already valid" } := by
  obtain ⟨q, hq, hqex⟩ :=
    generateRelativePath_resolves env.fs dirF fname cand hplain hc hld hsb hnpre hcne
  have hdot : strStartsWith (generateRelativePath (dirF ++ [fname]) cand) "." = true := by
    unfold generateRelativePath
    exact dotPrefix_startsWith _
  have h1 : ¬ (strStartsWith (generateRelativePath (dirF ++ [fname]) cand) "." = false ∧
      strStartsWith (generateRelativePath (dirF ++ [fname]) cand) "/" = false) := by
    rw [hdot]
    simp
  have h2 : (Option.map env.fs.existsSync (resolveImportPathRepair env.fs (dirF ++ [fname])
      (generateRelativePath (dirF ++ [fname]) cand))).getD false = true := by
    rw [hq]
    simpa using hqex
  simp [repairSingleImport, h1, h2]

/-- One `repairStep` after another is inert: the second step keeps the
first step's declaration and counts no repair. -/
theorem repairStep_stable (env : RepairEnv) (dirF : Path) (fname : String)
    (hgood : GoodEnv env dirF) (d : ImportDeclM) :
    (repairStep env (dirF ++ [fname]) false
        ((repairStep env (dirF ++ [fname]) false d).2.1)).2 =
      ((repairStep env (dirF ++ [fname]) false d).2.1, 0) := by
  by_cases hcnd :
      (repairSingleImport env (dirF ++ [fname]) d.specifier d.importType
            d.namedImports).status = RepairStatus.repaired ∧
        (repairSingleImport env (dirF ++ [fname]) d.specifier d.importType
              d.namedImports).repairedPath.getD "" ≠ ""
  · obtain ⟨hst, hne⟩ := hcnd
    obtain ⟨fn, r, hr, hpath⟩ :=
      repaired_path_shape env (dirF ++ [fname]) d.specifier d.importType d.namedImports hst
    have hgoodr := hgood fn r hr
    rw [hpath] at hne
    simp only [Option.getD_some] at hne
    have hd1 : (repairStep env (dirF ++ [fname]) false d).2.1 =
        { d with specifier := generateRelativePath (dirF ++ [fname]) r.path } := by
      simp [repairStep, hst, hne, hpath]
    rw [hd1]
    have hsecond := repairSingleImport_second env dirF fname r.path
      hgoodr.1 hgoodr.2.1 hgoodr.2.2.1 hgoodr.2.2.2.1 hgoodr.2.2.2.2.1 hgoodr.2.2.2.2.2
      d.importType d.namedImports
    simp [repairStep, hsecond]
  · have hd1 : (repairStep env (dirF ++ [fname]) false d).2.1 = d := by
      simp [repairStep, hcnd]
    rw [hd1]
    simp [repairStep, hcnd]

/-- C8, amended: `repairImportPaths` is idempotent on a well-formed
environment — a second non-dry run over the first run's rewritten imports
repairs nothing, keeps every specifier, and does not save —
whereas `optimizeImports` is not idempotent (see the counterexample). -/
theorem repair_idempotent_amended (env : RepairEnv) (dirF : Path) (fname : String)
    (imports : List ImportDeclM) (hgood : GoodEnv env dirF) :
    (repairImportPaths env (dirF ++ [fname])
        (repairImportPaths env (dirF ++ [fname]) imports false).newImports
        false).totalImportsRepaired = 0 ∧
    (repairImportPaths env (dirF ++ [fname])
        (repairImportPaths env (dirF ++ [fname]) imports false).newImports
        false).newImports =
      (repairImportPaths env (dirF ++ [fname]) imports false).newImports ∧
    (repairImportPaths env (dirF ++ [fname])
        (repairImportPaths env (dirF ++ [fname]) imports false).newImports
        false).saved = false := by
  set N : List ImportDeclM :=
    (repairImportPaths env (dirF ++ [fname]) imports false).newImports with hN
  have hstep : ∀ d ∈ N, (repairStep env (dirF ++ [fname]) false d).2 = (d, 0) := by
    intro d hd
    rw [hN] at hd
    simp only [repairImportPaths, List.map_map, List.mem_map, Function.comp] at hd
    obtain ⟨d0, _, hd0⟩ := hd
    rw [← hd0]
    exact repairStep_stable env dirF fname hgood d0
  have hsum : ((N.map (repairStep env (dirF ++ [fname]) false)).map
      (fun s => s.2.2)).sum = 0 := by
    apply List.sum_eq_zero
    intro x hx
    rw [List.map_map, List.mem_map] at hx
    obtain ⟨d, hd, hxe⟩ := hx
    rw [← hxe]
    exact congrArg Prod.snd (hstep d hd)
  refine ⟨hsum, ?_, ?_⟩
  · show (N.map (repairStep env (dirF ++ [fname]) false)).map (fun s => s.2.1) = N
    rw [List.map_map]
    conv_rhs => rw [← List.map_id N]
    apply List.map_congr_left
    intro d hd
    exact congrArg Prod.fst (hstep d hd)
  · show decide ((false = false) ∧
        ((N.map (repairStep env (dirF ++ [fname]) false)).map
          (fun s => s.2.2)).sum > 0) = false
    rw [hsum]
    decide

/-- The single collaborator candidate of the C8 witness. -/
def rawC8 : RawMatch := { path := ["p", "lib", "b.ts"], exports := [], hasDefault := false }

/-- The repair environment of the C8 witness: `/p/a.ts` with a
dangling import and one well-formed collaborator candidate `/p/lib/b.ts`. -/
def envC8 : RepairEnv :=
  { fs := { entries := [["p"], ["p", "a.ts"], ["p", "lib"], ["p", "lib", "b.ts"]] }
    findFiles := fun _ => [rawC8] }

/-- C8, witness: idempotence at a concrete environment and import
list. -/
theorem repair_idempotent_amended_witness :
    (repairImportPaths envC8 ["p", "a.ts"]
        (repairImportPaths envC8 ["p", "a.ts"]
          [{ specifier := "./missing", importType := ImportKind.sideEffect,
             namedImports := [] }] false).newImports
        false).totalImportsRepaired = 0 ∧
    (repairImportPaths envC8 ["p", "a.ts"]
        (repairImportPaths envC8 ["p", "a.ts"]
          [{ specifier := "./missing", importType := ImportKind.sideEffect,
             namedImports := [] }] false).newImports
        false).newImports =
      (repairImportPaths envC8 ["p", "a.ts"]
        [{ specifier := "./missing", importType := ImportKind.sideEffect,
           namedImports := [] }] false).newImports ∧
    (repairImportPaths envC8 ["p", "a.ts"]
        (repairImportPaths envC8 ["p", "a.ts"]
          [{ specifier := "./missing", importType := ImportKind.sideEffect,
             namedImports := [] }] false).newImports
        false).saved = false := by
  apply repair_idempotent_amended envC8 ["p"] "a.ts"
    [{ specifier := "./missing", importType := ImportKind.sideEffect, namedImports := [] }]
  intro n r hr
  have hr' : r ∈ [rawC8] := hr
  rcases List.mem_singleton.mp hr' with rfl
  exact ⟨by decide, by decide, ⟨".ts", by decide, by decide⟩, by decide, by decide,
    by decide⟩

end McpTs
